import Mathlib

/-!
# Motion detection pipeline: work partitioning, frame differencing, task handoff

A shallow embedding of the C sources `handle_motion.c`, `image_utils.c`,
`network_utils.c` and `main.c`, followed by theorems about the embedded
functions.

Conventions of the embedding
* a C `int` is a Lean `Int`; every `int` operation reduces its mathematical
  result with `wrap32` (a signed overflow is undefined in C, the embedding
  takes the two's-complement value);
* a C string is the `List Char` of its bytes before the terminating NUL;
* a pixel buffer is a `List Nat` of byte values; a read outside a buffer is
  undefined in C and makes the buffer computed from it `none`.
-/

namespace MotionDetection

/-! ## C `int` arithmetic -/

/-- Two's-complement reduction of an integer to the range of a 32-bit `int`. -/
def wrap32 (x : Int) : Int := (x + 2147483648) % 4294967296 - 2147483648

/-- Largest value of a C `int`. -/
def INT_MAX : Int := 2147483647

/-- Smallest value of a C `int`. -/
def INT_MIN : Int := -2147483648

/-- `a + b` on C `int`s. -/
def int_add (a b : Int) : Int := wrap32 (a + b)

/-- `a - b` on C `int`s. -/
def int_sub (a b : Int) : Int := wrap32 (a - b)

/-- `a * b` on C `int`s. -/
def int_mul (a b : Int) : Int := wrap32 (a * b)

/-- `a / b` on C `int`s: the quotient truncated toward zero.  Division by zero
is undefined in C; no caller in the sources divides by zero (`get_cpu_cores`
exits when it finds fewer than one core). -/
def int_div (a b : Int) : Int := wrap32 (Int.tdiv a b)

/-! ## handle_motion.h / handle_motion.c : work partitioning -/

/-- The argument record of one worker thread (`ThreadData` in
`handle_motion.h`). -/
structure ThreadData where
  start_frame : Int
  end_frame : Int
  input_path : List Char
  output_path : List Char
deriving DecidableEq

/-- The value of `frames_per_thread` in `process_frames_with_threads`:
`(total_frames - start_frame) / num_threads`. -/
def frames_per_thread (total_frames start_frame num_threads : Int) : Int :=
  int_div (int_sub total_frames start_frame) num_threads

/-- The record `thread_data[i]` that the creation loop of
`process_frames_with_threads` fills in for thread `i`. -/
def thread_data (input_path output_path : List Char)
    (total_frames start_frame num_threads : Int) (i : Int) : ThreadData :=
  { start_frame :=
      int_add start_frame
        (int_mul i (frames_per_thread total_frames start_frame num_threads))
    end_frame :=
      if i = int_sub num_threads 1 then int_sub total_frames 1
      else
        int_sub
          (int_add start_frame
            (int_mul (int_add i 1)
              (frames_per_thread total_frames start_frame num_threads)))
          1
    input_path := input_path
    output_path := output_path }

/-- The thread numbers `0, 1, .., num_threads - 1` of the creation loop
`for (int i = 0; i < num_threads; ++i)`. -/
def thread_ids (num_threads : Int) : List Int :=
  (List.range num_threads.toNat).map Int.ofNat

/-- The values `start_frame, .., end_frame` taken by the loop counter of
`for (int i = data->start_frame; i <= data->end_frame; ++i)` in
`process_frame_batch`; empty when `end_frame < start_frame`.  (The counter
stays inside `[start_frame, end_frame]`; the increment after the last pass
overflows only for `end_frame = INT_MAX`, which is not represented here.) -/
def frame_indices (start_frame end_frame : Int) : List Int :=
  (List.range (end_frame - start_frame + 1).toNat).map
    (fun j => start_frame + Int.ofNat j)


/-! ## image_utils.c : pixel operations -/

/-- Conversion of a non-negative integer value to `unsigned char`. -/
def to_uchar (x : Nat) : Nat := x % 256

/-- The number of passes of `for (int i = 0; i < width * height; i++)`. -/
def pixel_count (width height : Int) : Nat := (int_mul width height).toNat

/-- The read `buf[idx]` of a byte buffer at an `int` index; `none` outside
the buffer. -/
def read_byte (buf : List Nat) (idx : Int) : Option Nat :=
  if 0 ≤ idx then buf[idx.toNat]? else none

/-- The loop `for (i = 0; i < n; i++) output[i] = f(i)`: the buffer of the `n`
values written, `none` as soon as one of them depends on a read outside a
buffer. -/
def fill_buffer (n : Nat) (f : Nat → Option Nat) : Option (List Nat) :=
  if ∀ i, i < n → (f i).isSome = true then
    some ((List.range n).map (fun i => (f i).getD 0))
  else none

/-! ### The `double` arithmetic of `rgb_to_grayscale`

C `double` is taken to be IEEE-754 binary64 with round-to-nearest-even, each
operation rounded once.  Every value that occurs is non-negative, below `256`
and a multiple of `2^-56`, so a `double` is represented by the natural number
`n` with value `n / 2^56`. -/

/-- How many low-order bits of `n` do not fit a 53-bit significand. -/
def excess_bits : Nat → Nat → Nat
  | 0, _ => 0
  | fuel + 1, n =>
    if n < 9007199254740992 then 0 else excess_bits fuel (n / 2) + 1

/-- Round the exact value `n / 2^56` to the nearest binary64 number, ties to
the even significand; the result is again in units of `2^-56`. -/
def round_double (n : Nat) : Nat :=
  let s := excess_bits n n
  let q := n / 2 ^ s
  let r := n % 2 ^ s
  if 2 ^ s < 2 * r ∨ (2 * r = 2 ^ s ∧ q % 2 = 1) then (q + 1) * 2 ^ s
  else q * 2 ^ s

/-- The `double` literal `0.2989` (`0x1.3212d77318fc5p-2`) in units of
`2^-56`. -/
def DBL_0_2989 : Nat := 21538014857936660

/-- The `double` literal `0.5870` (`0x1.2c8b439581062p-1`) in units of
`2^-56`. -/
def DBL_0_5870 : Nat := 42297807700263696

/-- The `double` literal `0.1140` (`0x1.d2f1a9fbe76c9p-4`) in units of
`2^-56`. -/
def DBL_0_1140 : Nat := 8214565720323785

/-- The value stored by `gray[i] = (r * 0.2989) + (g * 0.5870) + (b * 0.1140)`:
three rounded products, two rounded sums from left to right, then the
conversion of the `double` to `unsigned char`, which drops the fraction. -/
def gray_value (r g b : Nat) : Nat :=
  to_uchar
    (round_double
        (round_double (round_double (r * DBL_0_2989) + round_double (g * DBL_0_5870))
          + round_double (b * DBL_0_1140))
      / 72057594037927936)

/-- `rgb_to_grayscale(rgb, gray, width, height)`: the contents of `gray`
afterwards. -/
def rgb_to_grayscale (rgb : List Nat) (width height : Int) : Option (List Nat) :=
  fill_buffer (pixel_count width height) (fun i =>
    match read_byte rgb (int_mul 3 i),
          read_byte rgb (int_add (int_mul 3 i) 1),
          read_byte rgb (int_add (int_mul 3 i) 2) with
    | some r, some g, some b => some (gray_value r g b)
    | _, _, _ => none)

/-- `compute_difference(img1, img2, output, width, height)`: the contents of
`output` afterwards; the subtraction and `abs` are done in `int`. -/
def compute_difference (img1 img2 : List Nat) (width height : Int) :
    Option (List Nat) :=
  fill_buffer (pixel_count width height) (fun i =>
    match read_byte img1 i, read_byte img2 i with
    | some a, some b => some (to_uchar (Int.natAbs ((a : Int) - (b : Int))))
    | _, _ => none)

/-- `apply_threshold(input, output, width, height, threshold)`: the contents
of `output` afterwards. -/
def apply_threshold (input : List Nat) (width height : Int) (threshold : Nat) :
    Option (List Nat) :=
  fill_buffer (pixel_count width height) (fun i =>
    match read_byte input i with
    | some v => some (if v > threshold then 255 else 0)
    | none => none)

/-! ## Formatted output: `snprintf` -/

/-- The decimal digit character of `d < 10`. -/
def digit_char (d : Nat) : Char := Char.ofNat (48 + d)

/-- Decimal digits of `n`, most significant first, in front of `acc`. -/
def nat_digits : Nat → Nat → List Char → List Char
  | 0, _, acc => acc
  | fuel + 1, n, acc =>
    if n < 10 then digit_char n :: acc
    else nat_digits fuel (n / 10) (digit_char (n % 10) :: acc)

/-- The conversion `%d` of `printf`. -/
def format_d (x : Int) : List Char :=
  if x < 0 then '-' :: nat_digits (x.natAbs + 1) x.natAbs []
  else nat_digits (x.natAbs + 1) x.natAbs []

/-- What `snprintf(buf, size, ..)` leaves in `buf` when the complete output
would be `s`: at most `size - 1` bytes of it. -/
def snprintf (size : Nat) (s : List Char) : List Char := s.take (size - 1)

/-- The path of input frame `i`:
`snprintf(path, 256, "%s/frame_%d.jpg", input_path, i)`. -/
def frame_path (input_path : List Char) (i : Int) : List Char :=
  snprintf 256 (input_path ++ "/frame_".toList ++ format_d i ++ ".jpg".toList)

/-- The path of motion mask `i`:
`snprintf(output_file, 256, "%s/motion_frame_%d.jpg", output_path, i)`. -/
def motion_path (output_path : List Char) (i : Int) : List Char :=
  snprintf 256
    (output_path ++ "/motion_frame_".toList ++ format_d i ++ ".jpg".toList)

/-! ## handle_motion.c : the worker -/

/-- A decoded image as `load_jpeg` returns it: the pixel bytes and the
dimensions it stores through `width` and `height`. -/
structure Image where
  width : Int
  height : Int
  data : List Nat
deriving DecidableEq

/-- One call `save_jpeg(filename, data, width, height)`, with the value
`frame` of the loop counter at the call.  `data = none` records a buffer whose
contents depend on a read outside a buffer. -/
structure SaveCall where
  frame : Int
  filename : List Char
  data : Option (List Nat)
  width : Int
  height : Int
deriving DecidableEq

/-- One pass of the loop of `process_frame_batch` for the counter value `i`:
the `save_jpeg` calls it makes (none or one).  `load_jpeg` gives the result
of loading a path (`none` for `NULL`); the second load overwrites
`frame_width` and `frame_height`, which are the dimensions used from then
on. -/
def process_frame (load_jpeg : List Char → Option Image)
    (input_path output_path : List Char) (i : Int) : List SaveCall :=
  match load_jpeg (frame_path input_path i) with
  | none => []
  | some frame =>
    let gray_frame := rgb_to_grayscale frame.data frame.width frame.height
    match load_jpeg (frame_path input_path (int_sub i 1)) with
    | none => []
    | some prev_frame =>
      let prev_gray_frame :=
        rgb_to_grayscale prev_frame.data prev_frame.width prev_frame.height
      let diff := do
        compute_difference (← prev_gray_frame) (← gray_frame)
          prev_frame.width prev_frame.height
      let motion := do
        apply_threshold (← diff) prev_frame.width prev_frame.height 20
      [{ frame := i
         filename := motion_path output_path i
         data := motion
         width := prev_frame.width
         height := prev_frame.height }]

/-- `process_frame_batch`: the `save_jpeg` calls of one worker, in order. -/
def process_frame_batch (load_jpeg : List Char → Option Image)
    (data : ThreadData) : List SaveCall :=
  (frame_indices data.start_frame data.end_frame).flatMap
    (process_frame load_jpeg data.input_path data.output_path)

/-- `process_frames_with_threads` run with `num_threads = get_cpu_cores()`
workers: the `save_jpeg` calls of all workers, listed worker by worker (the
workers run concurrently; only membership in this list is meaningful across
workers). -/
def process_frames_with_threads (load_jpeg : List Char → Option Image)
    (num_threads : Int) (input_path output_path : List Char)
    (total_frames start_frame : Int) : List SaveCall :=
  (thread_ids num_threads).flatMap (fun i =>
    process_frame_batch load_jpeg
      (thread_data input_path output_path total_frames start_frame num_threads i))

/-- The counter values passed through by the loops of all workers of
`process_frames_with_threads`. -/
def visited_frames (num_threads total_frames start_frame : Int) : List Int :=
  (thread_ids num_threads).flatMap (fun i =>
    frame_indices
      (thread_data [] [] total_frames start_frame num_threads i).start_frame
      (thread_data [] [] total_frames start_frame num_threads i).end_frame)

/-! ## main.c / network_utils.c : the two-node handoff -/

/-- The two calls of `start_server_mode` once the frame count is known:
`process_frames_with_threads(input_path, output_path, local_total, local_start)`
and `start_server(input_path, output_path, task_start, task_end)`. -/
structure ServerCalls where
  local_total : Int
  local_start : Int
  task_start : Int
  task_end : Int
deriving DecidableEq

/-- `start_server_mode` for the value `total_frames` returned by
`count_frames_in_directory`: `none` when it returns early
(`total_frames <= 0`), otherwise the arguments of its two calls. -/
def start_server_mode (total_frames : Int) : Option ServerCalls :=
  if total_frames ≤ 0 then none
  else
    some
      { local_total := int_div total_frames 2
        local_start := 0
        task_start := int_div total_frames 2
        task_end := int_sub total_frames 1 }

/-- The complete output of the format `"PROCESS %s %s %d %d"`. -/
def task_text (input_path output_path : List Char)
    (start_frame end_frame : Int) : List Char :=
  "PROCESS ".toList ++ input_path ++ " ".toList ++ output_path ++ " ".toList
    ++ format_d start_frame ++ " ".toList ++ format_d end_frame

/-- The task message of `start_server`:
`snprintf(buffer, 1024, "PROCESS %s %s %d %d", input_path, output_path,
start_frame, end_frame)`. -/
def task_message (input_path output_path : List Char)
    (start_frame end_frame : Int) : List Char :=
  snprintf 1024 (task_text input_path output_path start_frame end_frame)

/-- The C library predicate `isspace` in the "C" locale. -/
def isspace (c : Char) : Bool :=
  c = ' ' || c = '\t' || c = '\n' || c = '\x0b' || c = '\x0c' || c = '\r'

/-- The C library predicate `isdigit`. -/
def isdigit (c : Char) : Bool := 48 ≤ c.toNat && c.toNat ≤ 57

/-- A white-space directive of a `scanf` format: skips all leading white
space of the input. -/
def skip_space (s : List Char) : List Char := s.dropWhile isspace

/-- Ordinary characters of a `scanf` format: the input must start with them;
gives the rest of the input. -/
def match_literal : List Char → List Char → Option (List Char)
  | [], s => some s
  | _ :: _, [] => none
  | c :: lit, d :: s => if c = d then match_literal lit s else none

/-- The directive `%s` of `scanf`: skips white space, then takes the longest
run of non-white-space characters; fails at the end of the input. -/
def scan_s (s : List Char) : Option (List Char × List Char) :=
  match (skip_space s).span (fun c => !isspace c) with
  | ([], _) => none
  | (token, rest) => some (token, rest)

/-- The value of a run of decimal digits. -/
def digits_value (ds : List Char) : Nat :=
  ds.foldl (fun acc c => 10 * acc + (c.toNat - 48)) 0

/-- The optional sign in front of a `%d` number: whether it is `-`, and the
input after it. -/
def scan_sign : List Char → Bool × List Char
  | '-' :: t => (true, t)
  | '+' :: t => (false, t)
  | t => (false, t)

/-- The directive `%d` of `scanf`: skips white space, takes an optional sign
and the longest run of digits; fails when there is no digit.  The value is
stored in an `int`. -/
def scan_d (s : List Char) : Option (Int × List Char) :=
  match (scan_sign (skip_space s)).2.span isdigit with
  | ([], _) => none
  | (ds, rest) =>
    some
      (wrap32
        (if (scan_sign (skip_space s)).1 then -(digits_value ds : Int)
         else (digits_value ds : Int)),
        rest)

/-- The four variables of `start_client` after
`sscanf(buffer, "PROCESS %s %s %d %d", input_path, output_path, &start_frame,
&end_frame)`; a variable that `sscanf` did not assign is `none`. -/
structure TaskFields where
  input_path : Option (List Char)
  output_path : Option (List Char)
  start_frame : Option Int
  end_frame : Option Int
deriving DecidableEq

/-- `MAX_PATH` of `main.h`, the size of the two path arrays of `start_client`. -/
def MAX_PATH : Nat := 512

/-- `sscanf(buffer, "PROCESS %s %s %d %d", ..)` on the received text: the
directives are applied in order and the scan stops at the first that fails.
The result is `none` when a `%s` token does not fit its `MAX_PATH` array with
the terminating NUL (the write past the array is undefined). -/
def sscanf_task (buffer : List Char) : Option TaskFields :=
  match match_literal "PROCESS".toList buffer with
  | none => some ⟨none, none, none, none⟩
  | some s1 =>
    match scan_s (skip_space s1) with
    | none => some ⟨none, none, none, none⟩
    | some (input_path, s2) =>
      if MAX_PATH ≤ input_path.length then none
      else
        match scan_s (skip_space s2) with
        | none => some ⟨some input_path, none, none, none⟩
        | some (output_path, s3) =>
          if MAX_PATH ≤ output_path.length then none
          else
            match scan_d (skip_space s3) with
            | none => some ⟨some input_path, some output_path, none, none⟩
            | some (start_frame, s4) =>
              match scan_d (skip_space s4) with
              | none =>
                some ⟨some input_path, some output_path, some start_frame, none⟩
              | some (end_frame, _) =>
                some ⟨some input_path, some output_path, some start_frame,
                  some end_frame⟩

/-- The call `process_frames_with_threads(input_path, output_path,
end_frame + 1, start_frame)` of `start_client`: its arguments `total_frames`
and `start_frame`. -/
def start_client_call (start_frame end_frame : Int) : Int × Int :=
  (int_add end_frame 1, start_frame)

/-- The completion message of `start_client`:
`snprintf(buffer, 1024, "COMPLETED")`. -/
def completion_message : List Char := snprintf 1024 "COMPLETED".toList

/-! ## network_utils.c : the acknowledgment -/

/-- The two descriptors that `start_server` closes. -/
inductive Socket where
  | client_socket
  | server_fd
deriving DecidableEq

/-- The three branches of `start_server` after its `read`: the message
"Client successfully completed the task", the message "Unexpected message
from client", and the error "Failed to receive confirmation from client". -/
inductive AckOutcome where
  | success
  | unexpected
  | read_failed
deriving DecidableEq

/-- `BUFFER_SIZE` of `network_utils.c`. -/
def BUFFER_SIZE : Nat := 1024

/-- The C string that starts a buffer holding `bytes`: the bytes in front of
the first NUL. -/
def c_string (bytes : List Char) : List Char :=
  bytes.takeWhile (fun c => c != Char.ofNat 0)

/-- What `read(client_socket, buffer, BUFFER_SIZE)` stores in the cleared
buffer when the stream delivers `bytes`: at most `BUFFER_SIZE` of them. -/
def read_buffer (bytes : List Char) : List Char := bytes.take BUFFER_SIZE

/-- The end of `start_server`, from `memset(buffer, 0, BUFFER_SIZE)` on.
`received` is `none` when `read` fails with `-1`, otherwise the bytes the
stream delivers (none at end of stream).  The result is the branch taken and
the descriptors closed, in order, before the function returns. -/
def start_server_ack (received : Option (List Char)) : AckOutcome × List Socket :=
  match received with
  | none => (AckOutcome.read_failed, [Socket.client_socket, Socket.server_fd])
  | some bytes =>
    if 0 < (read_buffer bytes).length then
      if c_string (read_buffer bytes) = "COMPLETED".toList then
        (AckOutcome.success, [Socket.client_socket, Socket.server_fd])
      else (AckOutcome.unexpected, [Socket.client_socket, Socket.server_fd])
    else (AckOutcome.read_failed, [Socket.client_socket, Socket.server_fd])

/-! ## handle_motion.c : counting the frames of a directory -/

/-- The bracket expression `[0-9]` in the "C" locale. -/
def regex_digit : RegularExpression Char :=
  RegularExpression.char '0' + RegularExpression.char '1' + RegularExpression.char '2'
    + RegularExpression.char '3' + RegularExpression.char '4'
    + RegularExpression.char '5' + RegularExpression.char '6'
    + RegularExpression.char '7' + RegularExpression.char '8'
    + RegularExpression.char '9'

/-- A run of ordinary characters of a regular expression. -/
def regex_literal (s : List Char) : RegularExpression Char :=
  s.foldr (fun c r => RegularExpression.comp (RegularExpression.char c) r)
    RegularExpression.epsilon

/-- The body of the pattern `"^frame_[0-9]+\\.jpg$"` given to `regcomp`:
`frame_`, then `[0-9]+`, then the escaped dot and `jpg`. -/
def frame_regex : RegularExpression Char :=
  RegularExpression.comp (regex_literal "frame_".toList)
    (RegularExpression.comp
      (RegularExpression.comp regex_digit (RegularExpression.star regex_digit))
      (regex_literal ".jpg".toList))

/-- `regexec(&regex, d_name, 0, NULL, 0) == 0`: with the anchors `^` and `$`
the pattern has to match the whole entry name. -/
def regexec_frame (d_name : List Char) : Bool := frame_regex.rmatch d_name

/-- `count_frames_in_directory`: `entries` is `none` when `opendir` fails,
otherwise the entry names that `readdir` returns, in order. -/
def count_frames_in_directory (entries : Option (List (List Char))) : Int :=
  match entries with
  | none => -1
  | some names =>
    names.foldl
      (fun frame_count d_name =>
        if regexec_frame d_name then int_add frame_count 1 else frame_count)
      0

/-- Modelled after the words of the specification of `countFrames`: the name
is `frame_`, followed by one or more decimal digits, followed by `.jpg`, with
nothing before or after. -/
def is_frame_name (name : List Char) : Prop :=
  ∃ ds : List Char, ds ≠ [] ∧ (∀ c, c ∈ ds → isdigit c = true)
    ∧ name = "frame_".toList ++ ds ++ ".jpg".toList

/-! ## main.c : the two ways to start motion detection -/

/-- Menu option 2 of `main`: the frame count is passed on unchecked to
`process_frames_with_threads(input, output, total_frames, 0)`. -/
def motion_detection_option (load_jpeg : List Char → Option Image)
    (num_threads : Int) (entries : Option (List (List Char)))
    (input_path output_path : List Char) : List SaveCall :=
  process_frames_with_threads load_jpeg num_threads input_path output_path
    (count_frames_in_directory entries) 0

/-- The `save_jpeg` calls of a two-node run for the frame count
`total_frames`: those of the coordinator's local run (`k1` threads) followed by
those of the helper's run (`k2` threads) on the range handed over; the helper
works on the same directories.  Nothing is done when `start_server_mode`
returns early. -/
def two_node_run (load_jpeg : List Char → Option Image) (k1 k2 : Int)
    (input_path output_path : List Char) (total_frames : Int) : List SaveCall :=
  match start_server_mode total_frames with
  | none => []
  | some c =>
    process_frames_with_threads load_jpeg k1 input_path output_path
        c.local_total c.local_start
      ++ process_frames_with_threads load_jpeg k2 input_path output_path
        (start_client_call c.task_start c.task_end).1
        (start_client_call c.task_start c.task_end).2

/-! ## Example directories -/

/-- `load_jpeg` for a directory given as a list of paths with their decoded
images; a path that is not listed does not load. -/
def load_from (files : List (List Char × Image)) (path : List Char) :
    Option Image :=
  files.lookup path

/-- A 1 x 1 RGB image of the gray level `v`. -/
def gray_pixel (v : Nat) : Image := ⟨1, 1, [v, v, v]⟩

/-- The directory `in` holding `frame_<n>.jpg` for the listed `n`, frame `n`
being a 1 x 1 image of gray level `25 * n`. -/
def frames_in (indices : List Nat) : List (List Char × Image) :=
  indices.map (fun (n : Nat) =>
    ("in/frame_".toList ++ format_d (Int.ofNat n) ++ ".jpg".toList,
      gray_pixel (25 * n)))

/-- `load_jpeg` for the directory `dir` holding the listed entries (name and
decoded image): the path `dir/name` loads the image of `name`. -/
def load_dir (dir : List Char) (entries : List (List Char × Image)) :
    List Char → Option Image :=
  load_from (entries.map (fun e => (dir ++ "/".toList ++ e.1, e.2)))

/-- The entries `frame_0.jpg .. frame_(c-1).jpg` with the images `images 0 ..
images (c-1)`, named as `vid_to_jpg` names them. -/
def frame_entries (images : Nat → Image) (c : Nat) : List (List Char × Image) :=
  (List.range c).map (fun (n : Nat) =>
    ("frame_".toList ++ format_d (Int.ofNat n) ++ ".jpg".toList, images n))

/-- The entries of a directory holding exactly `frame_0.jpg`, `frame_1.jpg`,
`frame_2.jpg`, `frame_4.jpg` and `frame_5.jpg` (1 x 1 images of gray level
`25 * n`). -/
def gap_entries : List (List Char × Image) :=
  [("frame_0.jpg".toList, gray_pixel 0), ("frame_1.jpg".toList, gray_pixel 25),
    ("frame_2.jpg".toList, gray_pixel 50), ("frame_4.jpg".toList, gray_pixel 100),
    ("frame_5.jpg".toList, gray_pixel 125)]
/-! ## Facts about C `int` arithmetic -/

theorem wrap32_of_range {x : Int} (h1 : -2147483648 ≤ x) (h2 : x ≤ 2147483647) :
    wrap32 x = x := by
  unfold wrap32
  omega

theorem wrap32_range (x : Int) : -2147483648 ≤ wrap32 x ∧ wrap32 x ≤ 2147483647 := by
  unfold wrap32
  omega

/-- For a non-negative length and a positive thread count no operation of
`frames_per_thread` overflows and the truncated quotient is the floor. -/
theorem frames_per_thread_eq {N s k : Int} (hs : 0 ≤ s) (hsN : s ≤ N)
    (hN : N ≤ INT_MAX) (hk : 1 ≤ k) :
    frames_per_thread N s k = (N - s) / k := by
  unfold INT_MAX at hN
  have hq0 : 0 ≤ (N - s) / k := Int.ediv_nonneg (by omega) (by omega)
  have hq1 : (N - s) / k ≤ N - s := Int.ediv_le_self k (by omega)
  have e1 : wrap32 (N - s) = N - s := wrap32_of_range (by omega) (by omega)
  have e2 : Int.tdiv (N - s) k = (N - s) / k :=
    Int.tdiv_eq_ediv (by omega) (by omega)
  have e3 : wrap32 ((N - s) / k) = (N - s) / k :=
    wrap32_of_range (by omega) (by omega)
  simp only [frames_per_thread, int_div, int_sub, e1, e2, e3]

/-- The first `i` full shares never exceed the length of the range. -/
theorem shares_le_length {L k i : Int} (hlen : 0 ≤ L) (hk : 1 ≤ k)
    (hi0 : 0 ≤ i) (hik : i ≤ k) :
    0 ≤ i * (L / k) ∧ i * (L / k) ≤ L := by
  have hq0 : 0 ≤ L / k := Int.ediv_nonneg hlen (by omega)
  have h1 : i * (L / k) ≤ k * (L / k) :=
    mul_le_mul_of_nonneg_right hik hq0
  have h2 : k * (L / k) ≤ L := Int.mul_ediv_self_le (by omega)
  exact ⟨mul_nonneg hi0 hq0, le_trans h1 h2⟩

/-- Start of the sub-range of thread `i`, without overflow. -/
theorem thread_data_start_frame (inp out : List Char) {N s k i : Int}
    (hs : 0 ≤ s) (hsN : s ≤ N) (hN : N ≤ INT_MAX) (hk : 1 ≤ k)
    (hi0 : 0 ≤ i) (hik : i < k) :
    (thread_data inp out N s k i).start_frame = s + i * ((N - s) / k) := by
  have hb := shares_le_length (L := N - s) (by omega) hk hi0 (le_of_lt hik)
  have hf := frames_per_thread_eq hs hsN hN hk
  unfold INT_MAX at hN
  have e1 : wrap32 (i * ((N - s) / k)) = i * ((N - s) / k) :=
    wrap32_of_range (by omega) (by omega)
  have e2 : wrap32 (s + i * ((N - s) / k)) = s + i * ((N - s) / k) :=
    wrap32_of_range (by omega) (by omega)
  simp only [thread_data, hf, int_add, int_mul, e1, e2]

/-- End of the sub-range of a thread other than the last, without overflow. -/
theorem thread_data_end_frame_inner (inp out : List Char) {N s k i : Int}
    (hs : 0 ≤ s) (hsN : s ≤ N) (hN : N ≤ INT_MAX) (hk : 1 ≤ k) (hkmax : k ≤ INT_MAX)
    (hi0 : 0 ≤ i) (hik : i + 1 < k) :
    (thread_data inp out N s k i).end_frame = s + (i + 1) * ((N - s) / k) - 1 := by
  have hb := shares_le_length (L := N - s) (i := i + 1) (by omega) hk (by omega)
    (by omega)
  have hf := frames_per_thread_eq hs hsN hN hk
  unfold INT_MAX at hN hkmax
  have e0 : wrap32 (k - 1) = k - 1 := wrap32_of_range (by omega) (by omega)
  have hne : ¬ i = k - 1 := by omega
  have e1 : wrap32 (i + 1) = i + 1 := wrap32_of_range (by omega) (by omega)
  have e2 : wrap32 ((i + 1) * ((N - s) / k)) = (i + 1) * ((N - s) / k) :=
    wrap32_of_range (by omega) (by omega)
  have e3 : wrap32 (s + (i + 1) * ((N - s) / k)) = s + (i + 1) * ((N - s) / k) :=
    wrap32_of_range (by omega) (by omega)
  have e4 : wrap32 (s + (i + 1) * ((N - s) / k) - 1)
      = s + (i + 1) * ((N - s) / k) - 1 :=
    wrap32_of_range (by omega) (by omega)
  simp only [thread_data, hf, int_add, int_mul, int_sub, e0, if_neg hne, e1, e2, e3, e4]

/-- End of the sub-range of the last thread. -/
theorem thread_data_end_frame_last (inp out : List Char) {N s k : Int}
    (hs : 0 ≤ s) (hsN : s ≤ N) (hN : N ≤ INT_MAX) (hk : 1 ≤ k) (hkmax : k ≤ INT_MAX) :
    (thread_data inp out N s k (k - 1)).end_frame = N - 1 := by
  unfold INT_MAX at hN hkmax
  have e0 : wrap32 (k - 1) = k - 1 := wrap32_of_range (by omega) (by omega)
  have e1 : wrap32 (N - 1) = N - 1 := wrap32_of_range (by omega) (by omega)
  simp only [thread_data, int_sub, e0, if_true, e1]

/-! ## Facts about the loops -/

theorem mem_thread_ids {k i : Int} : i ∈ thread_ids k ↔ 0 ≤ i ∧ i < k := by
  unfold thread_ids
  simp only [List.mem_map, List.mem_range]
  constructor
  · rintro ⟨n, hn, rfl⟩
    have : (Int.ofNat n) = (n : Int) := rfl
    omega
  · rintro ⟨h0, h1⟩
    refine ⟨i.toNat, by omega, ?_⟩
    have : (Int.ofNat i.toNat) = (i.toNat : Int) := rfl
    omega

theorem mem_frame_indices {a b x : Int} : x ∈ frame_indices a b ↔ a ≤ x ∧ x ≤ b := by
  unfold frame_indices
  simp only [List.mem_map, List.mem_range]
  constructor
  · rintro ⟨n, hn, rfl⟩
    have : (Int.ofNat n) = (n : Int) := rfl
    omega
  · rintro ⟨h0, h1⟩
    refine ⟨(x - a).toNat, by omega, ?_⟩
    have : (Int.ofNat (x - a).toNat) = ((x - a).toNat : Int) := rfl
    omega

theorem length_frame_indices (a b : Int) :
    (frame_indices a b).length = (b - a + 1).toNat := by
  simp [frame_indices]

/-- Sub-ranges of different workers do not meet: the earlier one ends before
the later one starts. -/
theorem thread_data_end_lt_start (inp out : List Char) {N s k i j : Int}
    (hs : 0 ≤ s) (hsN : s ≤ N) (hN : N ≤ INT_MAX) (hk : 1 ≤ k) (hkmax : k ≤ INT_MAX)
    (hi0 : 0 ≤ i) (hij : i < j) (hjk : j < k) :
    (thread_data inp out N s k i).end_frame
      < (thread_data inp out N s k j).start_frame := by
  rw [thread_data_start_frame inp out hs hsN hN hk (by omega) hjk,
    thread_data_end_frame_inner inp out hs hsN hN hk hkmax hi0 (by omega)]
  have hq0 : 0 ≤ (N - s) / k := Int.ediv_nonneg (by omega) (by omega)
  have h1 : (i + 1) * ((N - s) / k) ≤ j * ((N - s) / k) :=
    mul_le_mul_of_nonneg_right (by omega) hq0
  omega

/-- Every sub-range lies inside the requested range. -/
theorem thread_data_within (inp out : List Char) {N s k i : Int}
    (hs : 0 ≤ s) (hsN : s ≤ N) (hN : N ≤ INT_MAX) (hk : 1 ≤ k) (hkmax : k ≤ INT_MAX)
    (hi0 : 0 ≤ i) (hik : i < k) :
    s ≤ (thread_data inp out N s k i).start_frame
      ∧ (thread_data inp out N s k i).end_frame ≤ N - 1 := by
  have hb := shares_le_length (L := N - s) (by omega) hk hi0 (le_of_lt hik)
  refine ⟨?_, ?_⟩
  · rw [thread_data_start_frame inp out hs hsN hN hk hi0 hik]
    omega
  · by_cases hl : i = k - 1
    · subst hl
      rw [thread_data_end_frame_last inp out hs hsN hN hk hkmax]
    · have hb2 := shares_le_length (L := N - s) (i := i + 1) (by omega) hk
        (by omega) (by omega)
      rw [thread_data_end_frame_inner inp out hs hsN hN hk hkmax hi0 (by omega)]
      omega

/-- Every frame of the requested range lies in the sub-range of some worker. -/
theorem thread_data_covers (inp out : List Char) {N s k x : Int}
    (hs : 0 ≤ s) (hsN : s ≤ N) (hN : N ≤ INT_MAX) (hk : 1 ≤ k) (hkmax : k ≤ INT_MAX)
    (hx0 : s ≤ x) (hx1 : x ≤ N - 1) :
    ∃ i, 0 ≤ i ∧ i < k ∧ (thread_data inp out N s k i).start_frame ≤ x
      ∧ x ≤ (thread_data inp out N s k i).end_frame := by
  have hq0 : 0 ≤ (N - s) / k := Int.ediv_nonneg (by omega) (by omega)
  by_cases hlast : s + (k - 1) * ((N - s) / k) ≤ x
  · refine ⟨k - 1, by omega, by omega, ?_, ?_⟩
    · rw [thread_data_start_frame inp out hs hsN hN hk (by omega) (by omega)]
      exact hlast
    · rw [thread_data_end_frame_last inp out hs hsN hN hk hkmax]
      exact hx1
  · have hqpos : 0 < (N - s) / k := by
      rcases lt_or_eq_of_le hq0 with h | h
      · exact h
      · rw [← h] at hlast
        simp only [mul_zero, add_zero] at hlast
        omega
    have hi0 : 0 ≤ (x - s) / ((N - s) / k) := Int.ediv_nonneg (by omega) hq0
    have hlo : (x - s) / ((N - s) / k) * ((N - s) / k) ≤ x - s :=
      Int.ediv_mul_le _ (by omega)
    have hhi : x - s < ((x - s) / ((N - s) / k) + 1) * ((N - s) / k) := by
      have := Int.lt_ediv_add_one_mul_self (x - s) hqpos
      linarith
    have hik : (x - s) / ((N - s) / k) + 1 < k := by
      by_contra hc
      have h1 : (k - 1) * ((N - s) / k)
          ≤ (x - s) / ((N - s) / k) * ((N - s) / k) :=
        mul_le_mul_of_nonneg_right (by omega) hq0
      omega
    refine ⟨(x - s) / ((N - s) / k), hi0, by omega, ?_, ?_⟩
    · rw [thread_data_start_frame inp out hs hsN hN hk hi0 (by omega)]
      omega
    · rw [thread_data_end_frame_inner inp out hs hsN hN hk hkmax hi0 hik]
      omega

/-- The workers of `process_frames_with_threads` pass through exactly the
frames `start_frame .. total_frames - 1`. -/
theorem mem_visited_frames {N s k x : Int}
    (hs : 0 ≤ s) (hsN : s ≤ N) (hN : N ≤ INT_MAX) (hk : 1 ≤ k) (hkmax : k ≤ INT_MAX) :
    x ∈ visited_frames k N s ↔ s ≤ x ∧ x ≤ N - 1 := by
  unfold visited_frames
  simp only [List.mem_flatMap, mem_thread_ids, mem_frame_indices]
  constructor
  · rintro ⟨i, ⟨hi0, hik⟩, h1, h2⟩
    have hw := thread_data_within [] [] hs hsN hN hk hkmax hi0 hik
    omega
  · rintro ⟨h1, h2⟩
    obtain ⟨i, hi0, hik, h3, h4⟩ :=
      thread_data_covers [] [] hs hsN hN hk hkmax h1 h2
    exact ⟨i, ⟨hi0, hik⟩, h3, h4⟩

/-! ## Claims on the partition of a frame range -/

/-- C1 (partition completeness).  For a start frame `s ≥ 0`, a total `N` with
`s ≤ N - 1` and `k ≥ 1` threads (all C `int`s), the sub-ranges
`[start_frame, end_frame]` that `process_frames_with_threads` assigns to its
threads are contiguous (the first starts at `s`, each next one starts right
after the previous one ends, the last ends at `N - 1`) and pairwise disjoint;
every frame of `[s, N - 1]` lies in exactly one sub-range and no frame outside
`[s, N - 1]` lies in any. -/
theorem partition_completeness (inp out : List Char) (s N k : Int)
    (hs : 0 ≤ s) (hsN : s ≤ N - 1) (hN : N ≤ INT_MAX) (hk : 1 ≤ k)
    (hkmax : k ≤ INT_MAX) :
    (thread_data inp out N s k 0).start_frame = s
    ∧ (∀ i, i ∈ thread_ids k → i + 1 ∈ thread_ids k →
        (thread_data inp out N s k (i + 1)).start_frame
          = (thread_data inp out N s k i).end_frame + 1)
    ∧ (thread_data inp out N s k (k - 1)).end_frame = N - 1
    ∧ (∀ i j x, i ∈ thread_ids k → j ∈ thread_ids k → i ≠ j →
        ¬ ((thread_data inp out N s k i).start_frame ≤ x
            ∧ x ≤ (thread_data inp out N s k i).end_frame
            ∧ (thread_data inp out N s k j).start_frame ≤ x
            ∧ x ≤ (thread_data inp out N s k j).end_frame))
    ∧ (∀ x, s ≤ x → x ≤ N - 1 →
        ∃! i, i ∈ thread_ids k
          ∧ (thread_data inp out N s k i).start_frame ≤ x
          ∧ x ≤ (thread_data inp out N s k i).end_frame)
    ∧ (∀ i x, i ∈ thread_ids k →
        (thread_data inp out N s k i).start_frame ≤ x →
        x ≤ (thread_data inp out N s k i).end_frame → s ≤ x ∧ x ≤ N - 1) := by
  have hsN' : s ≤ N := by omega
  have hdisj : ∀ i j x, 0 ≤ i → i < j → j < k →
      ¬ ((thread_data inp out N s k i).start_frame ≤ x
          ∧ x ≤ (thread_data inp out N s k i).end_frame
          ∧ (thread_data inp out N s k j).start_frame ≤ x
          ∧ x ≤ (thread_data inp out N s k j).end_frame) := by
    intro i j x hi0 hij hjk ⟨_, h2, h3, _⟩
    have := thread_data_end_lt_start inp out hs hsN' hN hk hkmax hi0 hij hjk
    omega
  refine ⟨?_, ?_, ?_, ?_, ?_, ?_⟩
  · rw [thread_data_start_frame inp out hs hsN' hN hk (le_refl 0) (by omega)]
    simp
  · intro i hi hi1
    rw [mem_thread_ids] at hi hi1
    rw [thread_data_start_frame inp out hs hsN' hN hk (by omega) hi1.2,
      thread_data_end_frame_inner inp out hs hsN' hN hk hkmax hi.1 hi1.2]
    omega
  · exact thread_data_end_frame_last inp out hs hsN' hN hk hkmax
  · intro i j x hi hj hne
    rw [mem_thread_ids] at hi hj
    rcases lt_or_gt_of_ne hne with h | h
    · exact hdisj i j x hi.1 h hj.2
    · intro ⟨h1, h2, h3, h4⟩
      exact hdisj j i x hj.1 h hi.2 ⟨h3, h4, h1, h2⟩
  · intro x hx0 hx1
    obtain ⟨i, hi0, hik, h1, h2⟩ :=
      thread_data_covers inp out hs hsN' hN hk hkmax hx0 hx1
    refine ⟨i, ⟨mem_thread_ids.mpr ⟨hi0, hik⟩, h1, h2⟩, ?_⟩
    rintro j ⟨hj, h3, h4⟩
    rw [mem_thread_ids] at hj
    by_contra hne
    rcases lt_or_gt_of_ne hne with h | h
    · exact hdisj j i x hj.1 h hik ⟨h3, h4, h1, h2⟩
    · exact hdisj i j x hi0 h hj.2 ⟨h1, h2, h3, h4⟩
  · intro i x hi h1 h2
    rw [mem_thread_ids] at hi
    have := thread_data_within inp out hs hsN' hN hk hkmax hi.1 hi.2
    omega

/-- Witness of C1: ten frames from frame 0 on four threads. -/
theorem partition_completeness_witness :
    (thread_data [] [] 10 0 4 0).start_frame = 0
    ∧ (thread_data [] [] 10 0 4 (4 - 1)).end_frame = 10 - 1
    ∧ (∀ x : Int, 0 ≤ x → x ≤ 10 - 1 →
        ∃! i, i ∈ thread_ids 4
          ∧ (thread_data [] [] 10 0 4 i).start_frame ≤ x
          ∧ x ≤ (thread_data [] [] 10 0 4 i).end_frame) :=
  have h := partition_completeness [] [] 0 10 4 (by decide) (by decide)
    (by decide) (by decide) (by decide)
  ⟨h.1, h.2.2.1, h.2.2.2.2.1⟩

/-- C5 (sub-range sizes).  For a range of length `len = N - s ≥ 0` and `k ≥ 1`
threads, `frames_per_thread` is `floor(len / k)`, the loop of each of the
first `k - 1` workers passes through exactly `floor(len / k)` frames and the
loop of the last worker through exactly `floor(len / k) + len mod k`.  For
`N = 10`, `s = 0`, `k = 4`: `frames_per_thread = 2` and the sub-ranges are
`[0,1]`, `[2,3]`, `[4,5]`, `[6,9]`. -/
theorem sub_range_sizes (inp out : List Char) (s N k : Int)
    (hs : 0 ≤ s) (hsN : s ≤ N) (hN : N ≤ INT_MAX) (hk : 1 ≤ k)
    (hkmax : k ≤ INT_MAX) :
    frames_per_thread N s k = (N - s) / k
    ∧ (∀ i, 0 ≤ i → i < k - 1 →
        ((frame_indices (thread_data inp out N s k i).start_frame
            (thread_data inp out N s k i).end_frame).length : Int)
          = (N - s) / k)
    ∧ ((frame_indices (thread_data inp out N s k (k - 1)).start_frame
          (thread_data inp out N s k (k - 1)).end_frame).length : Int)
        = (N - s) / k + (N - s) % k
    ∧ frames_per_thread 10 0 4 = 2
    ∧ (thread_ids 4).map (fun i =>
          ((thread_data inp out 10 0 4 i).start_frame,
            (thread_data inp out 10 0 4 i).end_frame))
        = [(0, 1), (2, 3), (4, 5), (6, 9)] := by
  have hq0 : 0 ≤ (N - s) / k := Int.ediv_nonneg (by omega) (by omega)
  refine ⟨frames_per_thread_eq hs hsN hN hk, ?_, ?_, by decide, rfl⟩
  · intro i hi0 hik
    rw [length_frame_indices,
      thread_data_start_frame inp out hs hsN hN hk hi0 (by omega),
      thread_data_end_frame_inner inp out hs hsN hN hk hkmax hi0 (by omega)]
    have e : s + (i + 1) * ((N - s) / k) - 1 - (s + i * ((N - s) / k)) + 1
        = (N - s) / k := by ring
    rw [e, Int.toNat_of_nonneg hq0]
  · have hm0 : 0 ≤ (N - s) % k := Int.emod_nonneg _ (by omega)
    have hd : (N - s) % k = (N - s) - k * ((N - s) / k) := Int.emod_def _ _
    rw [length_frame_indices,
      thread_data_start_frame inp out hs hsN hN hk (by omega) (by omega),
      thread_data_end_frame_last inp out hs hsN hN hk hkmax]
    have e : N - 1 - (s + (k - 1) * ((N - s) / k)) + 1
        = (N - s) / k + (N - s) % k := by
      rw [hd]
      ring
    rw [e, Int.toNat_of_nonneg (by omega)]

/-- Witness of C5: ten frames from frame 0 on four threads. -/
theorem sub_range_sizes_witness :
    ((frame_indices (thread_data [] [] 10 0 4 (4 - 1)).start_frame
        (thread_data [] [] 10 0 4 (4 - 1)).end_frame).length : Int)
      = (10 - 0) / 4 + (10 - 0) % 4 :=
  (sub_range_sizes [] [] 0 10 4 (by decide) (by decide) (by decide) (by decide)
    (by decide)).2.2.1

/-! ## Claims on the two-node split -/

/-- The helper's call `process_frames_with_threads(.., end + 1, start)` passes
through exactly the frames `start .. end`. -/
theorem mem_visited_frames_client {a b k x : Int}
    (ha : 0 ≤ a) (hab : a ≤ b + 1) (hb : b < INT_MAX) (hk : 1 ≤ k)
    (hkmax : k ≤ INT_MAX) :
    x ∈ visited_frames k (start_client_call a b).1 (start_client_call a b).2
      ↔ a ≤ x ∧ x ≤ b := by
  unfold INT_MAX at hb
  have e : int_add b 1 = b + 1 := wrap32_of_range (by omega) (by omega)
  simp only [start_client_call, e]
  rw [mem_visited_frames ha hab (by unfold INT_MAX; omega) hk hkmax]
  omega

/-- C3 (two-node split).  For a frame count `N ≥ 1`, `start_server_mode`
computes `split = N / 2`, calls `process_frames_with_threads(.., split, 0)`,
whose workers pass through exactly the frames `0 .. split - 1`, and hands
`start = split`, `end = N - 1` to the helper; the helper's call
`process_frames_with_threads(.., end + 1, start)` passes through exactly the
frames `start .. end` (for the handed range and for any range it receives).
The two node ranges are disjoint and together are exactly `0 .. N - 1`. -/
theorem two_node_split (N k1 k2 : Int) (hN1 : 1 ≤ N) (hN : N ≤ INT_MAX)
    (hk1 : 1 ≤ k1) (hk1max : k1 ≤ INT_MAX) (hk2 : 1 ≤ k2) (hk2max : k2 ≤ INT_MAX) :
    ∃ c, start_server_mode N = some c
      ∧ c.local_total = N / 2 ∧ c.local_start = 0
      ∧ c.task_start = N / 2 ∧ c.task_end = N - 1
      ∧ (∀ x, x ∈ visited_frames k1 c.local_total c.local_start
          ↔ 0 ≤ x ∧ x ≤ N / 2 - 1)
      ∧ (∀ x, x ∈ visited_frames k2 (start_client_call c.task_start c.task_end).1
              (start_client_call c.task_start c.task_end).2
          ↔ N / 2 ≤ x ∧ x ≤ N - 1)
      ∧ (∀ a b x, 0 ≤ a → a ≤ b → b < INT_MAX →
          (x ∈ visited_frames k2 (start_client_call a b).1 (start_client_call a b).2
            ↔ a ≤ x ∧ x ≤ b))
      ∧ (∀ x, ¬ (x ∈ visited_frames k1 c.local_total c.local_start
          ∧ x ∈ visited_frames k2 (start_client_call c.task_start c.task_end).1
              (start_client_call c.task_start c.task_end).2))
      ∧ (∀ x, (x ∈ visited_frames k1 c.local_total c.local_start
          ∨ x ∈ visited_frames k2 (start_client_call c.task_start c.task_end).1
              (start_client_call c.task_start c.task_end).2)
          ↔ 0 ≤ x ∧ x ≤ N - 1) := by
  have hN' := hN
  unfold INT_MAX at hN'
  have e1 : int_div N 2 = N / 2 := by
    unfold int_div
    rw [Int.tdiv_eq_ediv (by omega) (by omega)]
    exact wrap32_of_range (by omega) (by omega)
  have e2 : int_sub N 1 = N - 1 := wrap32_of_range (by omega) (by omega)
  have hloc : ∀ x, x ∈ visited_frames k1 (N / 2) 0 ↔ 0 ≤ x ∧ x ≤ N / 2 - 1 :=
    fun x => mem_visited_frames (le_refl 0) (by omega) (by unfold INT_MAX; omega)
      hk1 hk1max
  have hhel : ∀ x, x ∈ visited_frames k2 (start_client_call (N / 2) (N - 1)).1
      (start_client_call (N / 2) (N - 1)).2 ↔ N / 2 ≤ x ∧ x ≤ N - 1 :=
    fun x => mem_visited_frames_client (by omega) (by omega)
      (by unfold INT_MAX; omega) hk2 hk2max
  refine ⟨⟨N / 2, 0, N / 2, N - 1⟩, ?_, rfl, rfl, rfl, rfl, hloc, hhel, ?_, ?_, ?_⟩
  · unfold start_server_mode
    rw [if_neg (by omega), e1, e2]
  · intro a b x ha hab hb
    exact mem_visited_frames_client ha (by omega) hb hk2 hk2max
  · intro x h
    have h1 := (hloc x).mp h.1
    have h2 := (hhel x).mp h.2
    omega
  · intro x
    rw [hloc x, hhel x]
    omega

/-- Witness of C3: ten frames, four threads on each node. -/
theorem two_node_split_witness :
    ∃ c, start_server_mode 10 = some c
      ∧ c.local_total = 10 / 2 ∧ c.local_start = 0
      ∧ c.task_start = 10 / 2 ∧ c.task_end = 10 - 1 :=
  have ⟨c, h0, h1, h2, h3, h4, _⟩ := two_node_split 10 4 4 (by decide) (by decide)
    (by decide) (by decide) (by decide) (by decide)
  ⟨c, h0, h1, h2, h3, h4⟩

/-! ## Facts about buffers -/

theorem read_byte_nat (buf : List Nat) (i : Nat) : read_byte buf (i : Int) = buf[i]? := by
  unfold read_byte
  rw [if_pos (Int.ofNat_nonneg i)]
  rfl

/-- A loop all of whose reads are inside their buffers writes the expected
values. -/
theorem fill_buffer_eq_some {n : Nat} {f : Nat → Option Nat} {g : Nat → Nat}
    (h : ∀ i, i < n → f i = some (g i)) :
    fill_buffer n f = some ((List.range n).map g) := by
  unfold fill_buffer
  have hall : ∀ i, i < n → (f i).isSome = true := fun i hi => by rw [h i hi]; rfl
  rw [if_pos hall]
  congr 1
  apply List.map_congr_left
  intro i hi
  rw [h i (List.mem_range.mp hi)]
  rfl

theorem getElem?_map_range {n p : Nat} (g : Nat → Nat) (hp : p < n) :
    ((List.range n).map g)[p]? = some (g p) := by
  simp [List.getElem?_map, List.getElem?_range hp]

/-! ## Claims on the pixel operations -/

/-- C8 (`apply_threshold`).  For an input buffer of `width * height` bytes and
a threshold `t`, the output has `width * height` bytes and `output[p]` is `255`
when `input[p] > t` (strictly) and `0` otherwise, for every `p`; so a pixel
equal to `t` gives `0`, and with `t = 255` the output is all zeros. -/
theorem apply_threshold_spec (input : List Nat) (width height : Int) (t : Nat)
    (hlen : input.length = pixel_count width height)
    (hbytes : ∀ v, v ∈ input → v ≤ 255) :
    ∃ output, apply_threshold input width height t = some output
      ∧ output.length = pixel_count width height
      ∧ (∀ p, p < pixel_count width height →
          ∃ v, input[p]? = some v
            ∧ output[p]? = some (if v > t then 255 else 0))
      ∧ (∀ p : Nat, input[p]? = some t → output[p]? = some 0)
      ∧ (t = 255 → ∀ p, p < pixel_count width height → output[p]? = some 0) := by
  have hget : ∀ p, p < pixel_count width height →
      input[p]? = some (input.getD p 0) := by
    intro p hp
    rw [List.getD_eq_getElem?_getD, List.getElem?_eq_getElem (by omega)]
    rfl
  have hrun : apply_threshold input width height t
      = some ((List.range (pixel_count width height)).map
          (fun p => if input.getD p 0 > t then 255 else 0)) := by
    unfold apply_threshold
    apply fill_buffer_eq_some
    intro i hi
    rw [read_byte_nat, hget i hi]
  refine ⟨_, hrun, by simp, ?_, ?_, ?_⟩
  · intro p hp
    exact ⟨input.getD p 0, hget p hp, getElem?_map_range _ hp⟩
  · intro p hv
    have hp : p < pixel_count width height := by
      rw [← hlen]
      exact (List.getElem?_eq_some_iff.mp hv).1
    rw [getElem?_map_range _ hp]
    have e : input.getD p 0 = t := by
      have := hget p hp
      rw [hv] at this
      exact (Option.some.inj this).symm
    show some (if input.getD p 0 > t then 255 else 0) = some 0
    rw [if_neg (by omega)]
  · intro ht p hp
    rw [getElem?_map_range _ hp]
    have hv : input.getD p 0 ≤ 255 := by
      apply hbytes
      exact List.getElem?_mem (hget p hp)
    show some (if input.getD p 0 > t then 255 else 0) = some 0
    rw [if_neg (by omega)]

/-- Witness of C8: a buffer of three pixels thresholded at 20. -/
theorem apply_threshold_spec_witness :
    ∃ output, apply_threshold [19, 20, 21] 3 1 20 = some output
      ∧ output.length = pixel_count 3 1
      ∧ (∀ p, p < pixel_count 3 1 →
          ∃ v, [19, 20, 21][p]? = some v
            ∧ output[p]? = some (if v > 20 then 255 else 0))
      ∧ (∀ p : Nat, [19, 20, 21][p]? = some 20 → output[p]? = some 0)
      ∧ (20 = 255 → ∀ p, p < pixel_count 3 1 → output[p]? = some 0) :=
  apply_threshold_spec [19, 20, 21] 3 1 20 (by decide) (by decide)

theorem getElem?_getD_of_lt {l : List Nat} {p : Nat} (hp : p < l.length) :
    l[p]? = some (l.getD p 0) := by
  rw [List.getD_eq_getElem?_getD, List.getElem?_eq_getElem hp]
  rfl

theorem getD_le_of_bytes {l : List Nat} {p : Nat} (hp : p < l.length)
    (hl : ∀ v, v ∈ l → v ≤ 255) : l.getD p 0 ≤ 255 :=
  hl _ (List.getElem?_mem (getElem?_getD_of_lt hp))

/-- `compute_difference` on two buffers that hold at least `width * height`
bytes: the value written at each position. -/
theorem compute_difference_eq (a b : List Nat) (width height : Int)
    (ha : pixel_count width height ≤ a.length)
    (hb : pixel_count width height ≤ b.length) :
    compute_difference a b width height
      = some ((List.range (pixel_count width height)).map
          (fun p => to_uchar (Int.natAbs ((a.getD p 0 : Int) - (b.getD p 0 : Int))))) := by
  unfold compute_difference
  apply fill_buffer_eq_some
  intro i hi
  rw [read_byte_nat, read_byte_nat, getElem?_getD_of_lt (by omega),
    getElem?_getD_of_lt (by omega)]

/-- C9 (`compute_difference`).  For two buffers `a`, `b` of `width * height`
bytes the output has `width * height` bytes and `output[p]` is the
mathematical absolute difference `|a[p] - b[p]|` (no wraparound; the value is
at most 255) for every `p`; the operation is symmetric in its two inputs and
gives all zeros when `a = b`. -/
theorem compute_difference_spec (a b : List Nat) (width height : Int)
    (ha : a.length = pixel_count width height)
    (hb : b.length = pixel_count width height)
    (hab : ∀ v, v ∈ a → v ≤ 255) (hbb : ∀ v, v ∈ b → v ≤ 255) :
    ∃ output, compute_difference a b width height = some output
      ∧ output.length = pixel_count width height
      ∧ (∀ p, p < pixel_count width height →
          ∃ x y d, a[p]? = some x ∧ b[p]? = some y ∧ output[p]? = some d
            ∧ (d : Int) = |(x : Int) - (y : Int)| ∧ d ≤ 255)
      ∧ compute_difference b a width height = some output
      ∧ (a = b → ∀ p, p < pixel_count width height → output[p]? = some 0) := by
  have hval : ∀ p, p < pixel_count width height →
      to_uchar (Int.natAbs ((a.getD p 0 : Int) - (b.getD p 0 : Int)))
        = Int.natAbs ((a.getD p 0 : Int) - (b.getD p 0 : Int)) := by
    intro p hp
    have h1 := getD_le_of_bytes (p := p) (by omega) hab
    have h2 := getD_le_of_bytes (p := p) (by omega) hbb
    unfold to_uchar
    omega
  refine ⟨_, compute_difference_eq a b width height (by omega) (by omega),
    by simp, ?_, ?_, ?_⟩
  · intro p hp
    have h1 := getD_le_of_bytes (p := p) (by omega) hab
    have h2 := getD_le_of_bytes (p := p) (by omega) hbb
    refine ⟨a.getD p 0, b.getD p 0, _, getElem?_getD_of_lt (by omega),
      getElem?_getD_of_lt (by omega), getElem?_map_range _ hp, ?_, ?_⟩
    · show ((to_uchar (Int.natAbs ((a.getD p 0 : Int) - (b.getD p 0 : Int))) : Nat) : Int)
        = |(a.getD p 0 : Int) - (b.getD p 0 : Int)|
      rw [hval p hp, Int.natCast_natAbs]
    · show to_uchar (Int.natAbs ((a.getD p 0 : Int) - (b.getD p 0 : Int))) ≤ 255
      rw [hval p hp]
      omega
  · rw [compute_difference_eq b a width height (by omega) (by omega)]
    congr 1
    apply List.map_congr_left
    intro p _
    congr 1
    omega
  · intro hab' p hp
    subst hab'
    rw [getElem?_map_range _ hp]
    show some (to_uchar (Int.natAbs ((a.getD p 0 : Int) - (a.getD p 0 : Int)))) = some 0
    rw [sub_self]
    rfl

/-- Witness of C9: two buffers of three pixels. -/
theorem compute_difference_spec_witness :
    ∃ output, compute_difference [0, 200, 7] [255, 100, 7] 3 1 = some output
      ∧ output.length = pixel_count 3 1
      ∧ (∀ p, p < pixel_count 3 1 →
          ∃ x y d : Nat, [0, 200, 7][p]? = some x ∧ [255, 100, 7][p]? = some y
            ∧ output[p]? = some d
            ∧ (d : Int) = |(x : Int) - (y : Int)| ∧ d ≤ 255)
      ∧ compute_difference [255, 100, 7] [0, 200, 7] 3 1 = some output
      ∧ ([0, 200, 7] = [255, 100, 7] →
          ∀ p, p < pixel_count 3 1 → output[p]? = some 0) :=
  compute_difference_spec [0, 200, 7] [255, 100, 7] 3 1 (by decide) (by decide)
    (by decide) (by decide)

/-! ## The `double` arithmetic of `rgb_to_grayscale` -/

/-- The three constants are the binary64 numbers nearest to `0.2989`, `0.5870`
and `0.1140`: each has a 53-bit significand (it lies in one binade and is a
multiple of the spacing of that binade, `4`, `8` and `1` units of `2^-56`) and
is closer than half that spacing to the decimal value. -/
theorem double_literals_nearest :
    (2 ^ 54 ≤ DBL_0_2989 ∧ DBL_0_2989 < 2 ^ 55 ∧ DBL_0_2989 % 4 = 0
      ∧ 2 * |(10000 * DBL_0_2989 : Int) - 2989 * 2 ^ 56| < 10000 * 4)
    ∧ (2 ^ 55 ≤ DBL_0_5870 ∧ DBL_0_5870 < 2 ^ 56 ∧ DBL_0_5870 % 8 = 0
      ∧ 2 * |(10000 * DBL_0_5870 : Int) - 5870 * 2 ^ 56| < 10000 * 8)
    ∧ (2 ^ 52 ≤ DBL_0_1140 ∧ DBL_0_1140 < 2 ^ 53
      ∧ 2 * |(10000 * DBL_0_1140 : Int) - 1140 * 2 ^ 56| < 10000 * 1) := by
  unfold DBL_0_2989 DBL_0_5870 DBL_0_1140
  norm_num [abs_lt]

/-- A value with at most 53 significant bits is a binary64 number: rounding
leaves it unchanged. -/
theorem round_double_exact (n : Nat) (h : n < 9007199254740992) : round_double n = n := by
  unfold round_double
  have e : excess_bits n n = 0 := by
    cases n with
    | zero => rfl
    | succ m =>
      unfold excess_bits
      rw [if_pos h]
  rw [e]
  simp [Nat.mod_one]

theorem excess_bits_le (fuel : Nat) : ∀ (n j : Nat), n < 2 ^ (53 + j) → excess_bits fuel n ≤ j := by
  induction fuel with
  | zero => intro n j _; simp [excess_bits]
  | succ f ih =>
    intro n j h
    unfold excess_bits
    split_ifs with h1
    · omega
    · have hj : 1 ≤ j := by
        by_contra hc
        have : j = 0 := by omega
        subst this
        norm_num at h
        omega
      have h2 : n / 2 < 2 ^ (53 + (j - 1)) := by
        have e : 2 ^ (53 + j) = 2 * 2 ^ (53 + (j - 1)) := by
          rw [← pow_succ']
          congr 1
          omega
        rw [e] at h
        omega
      have := ih (n / 2) (j - 1) h2
      omega

theorem round_double_error (n : Nat) (h : n < 18446744073709551616) :
    n ≤ round_double n + 1024 ∧ round_double n ≤ n + 1024 := by
  have hs : excess_bits n n ≤ 11 := excess_bits_le n n 11 (by norm_num; omega)
  unfold round_double
  generalize excess_bits n n = s at hs
  interval_cases s <;> norm_num <;> split_ifs <;> omega

/-- The rounded `double` sum of `gray_value`, times 10000, stays within a tiny
distance of the exact weighted sum `2989 r + 5870 g + 1140 b` in units of
`2^-56`. -/
theorem gray_sum_near (r g b : Nat) (hr : r ≤ 255) (hg : g ≤ 255) (hb : b ≤ 255) :
    (2989 * r + 5870 * g + 1140 * b) * 72057594037927936
        ≤ 10000 * round_double
            (round_double (round_double (r * DBL_0_2989) + round_double (g * DBL_0_5870))
              + round_double (b * DBL_0_1140)) + 57581120
    ∧ 10000 * round_double
            (round_double (round_double (r * DBL_0_2989) + round_double (g * DBL_0_5870))
              + round_double (b * DBL_0_1140))
        ≤ (2989 * r + 5870 * g + 1140 * b) * 72057594037927936 + 51954800 := by
  unfold DBL_0_2989 DBL_0_5870 DBL_0_1140
  have h1 := round_double_error (r * 21538014857936660) (by omega)
  have h2 := round_double_error (g * 42297807700263696) (by omega)
  have h3 := round_double_error (b * 8214565720323785) (by omega)
  generalize round_double (r * 21538014857936660) = pr at *
  generalize round_double (g * 42297807700263696) = pg at *
  generalize round_double (b * 8214565720323785) = pb at *
  have h4 := round_double_error (pr + pg) (by omega)
  generalize round_double (pr + pg) = s1 at *
  have h5 := round_double_error (s1 + pb) (by omega)
  generalize round_double (s1 + pb) = v at *
  omega

theorem gray_value_bounds (r g b : Nat) (hr : r ≤ 255) (hg : g ≤ 255) (hb : b ≤ 255) :
    gray_value r g b ≤ 254
    ∧ ((2989 * r + 5870 * g + 1140 * b) % 10000 ≠ 0 →
        gray_value r g b = (2989 * r + 5870 * g + 1140 * b) / 10000)
    ∧ ((2989 * r + 5870 * g + 1140 * b) % 10000 = 0 →
        gray_value r g b = (2989 * r + 5870 * g + 1140 * b) / 10000
        ∨ gray_value r g b + 1 = (2989 * r + 5870 * g + 1140 * b) / 10000) := by
  have hn := gray_sum_near r g b hr hg hb
  unfold gray_value to_uchar
  generalize round_double
    (round_double (round_double (r * DBL_0_2989) + round_double (g * DBL_0_5870))
      + round_double (b * DBL_0_1140)) = v at *
  have hm : 2989 * r + 5870 * g + 1140 * b ≤ 2549745 := by omega
  generalize 2989 * r + 5870 * g + 1140 * b = m at *
  clear hr hg hb
  obtain ⟨hlo, hhi⟩ := hn
  have hsplit : m = 10000 * (m / 10000) + m % 10000 := (Nat.div_add_mod m 10000).symm
  have hl : m / 10000 ≤ 254 := by omega
  have hc : m % 10000 ≤ 9999 := by omega
  generalize m / 10000 = l at *
  generalize m % 10000 = c at *
  subst hsplit
  have e1 : (10000 * l + c) * 72057594037927936
      = 10000 * (l * 72057594037927936) + c * 72057594037927936 := by ring
  rw [e1] at hlo hhi
  have hy : c * 72057594037927936 ≤ 9999 * 72057594037927936 :=
    Nat.mul_le_mul_right _ hc
  have hx : l * 72057594037927936 ≤ 254 * 72057594037927936 :=
    Nat.mul_le_mul_right _ hl
  by_cases hc0 : c = 0
  · subst hc0
    simp only [Nat.zero_mul, Nat.add_zero] at hlo hhi
    have hd : v / 72057594037927936 = l ∨ v / 72057594037927936 + 1 = l := by
      by_cases hv : l * 72057594037927936 ≤ v
      · left
        apply Nat.div_eq_of_lt_le hv
        rw [Nat.add_mul]
        omega
      · right
        obtain ⟨j, rfl⟩ : ∃ j, l = j + 1 := by
          refine ⟨l - 1, ?_⟩
          have : l ≠ 0 := by
            rintro rfl
            omega
          omega
        rw [Nat.add_mul] at hv hlo hhi
        have : v / 72057594037927936 = j := by
          apply Nat.div_eq_of_lt_le
          · omega
          · rw [Nat.add_mul]
            omega
        omega
    omega
  · have hy1 : 1 * 72057594037927936 ≤ c * 72057594037927936 :=
      Nat.mul_le_mul_right _ (by omega)
    generalize c * 72057594037927936 = y at *
    have hd : v / 72057594037927936 = l := by
      apply Nat.div_eq_of_lt_le
      · omega
      · rw [Nat.add_mul]
        omega
    omega

/-- The reads of pixel `i` by `rgb_to_grayscale` when the three index
computations stay in the `int` range and inside the buffer. -/
theorem rgb_reads (rgb : List Nat) {n i : Nat} (hi : i < n)
    (hmax : 3 * n ≤ 2147483647) (hlen : 3 * n ≤ rgb.length) :
    read_byte rgb (int_mul 3 i) = some (rgb.getD (3 * i) 0)
    ∧ read_byte rgb (int_add (int_mul 3 i) 1) = some (rgb.getD (3 * i + 1) 0)
    ∧ read_byte rgb (int_add (int_mul 3 i) 2) = some (rgb.getD (3 * i + 2) 0) := by
  have e0 : int_mul 3 (i : Int) = ((3 * i : Nat) : Int) := by
    unfold int_mul
    rw [wrap32_of_range (by omega) (by omega)]
    push_cast
    rfl
  have e1 : int_add ((3 * i : Nat) : Int) 1 = ((3 * i + 1 : Nat) : Int) := by
    unfold int_add
    rw [wrap32_of_range (by omega) (by omega)]
    push_cast
    rfl
  have e2 : int_add ((3 * i : Nat) : Int) 2 = ((3 * i + 2 : Nat) : Int) := by
    unfold int_add
    rw [wrap32_of_range (by omega) (by omega)]
    push_cast
    rfl
  rw [e0, e1, e2, read_byte_nat, read_byte_nat, read_byte_nat,
    getElem?_getD_of_lt (by omega), getElem?_getD_of_lt (by omega),
    getElem?_getD_of_lt (by omega)]
  exact ⟨rfl, rfl, rfl⟩

/-- `rgb_to_grayscale` on a buffer that holds at least `3 * width * height`
bytes: the value written at each position. -/
theorem rgb_to_grayscale_eq (rgb : List Nat) (width height : Int)
    (hmax : 3 * pixel_count width height ≤ 2147483647)
    (hlen : 3 * pixel_count width height ≤ rgb.length) :
    rgb_to_grayscale rgb width height
      = some ((List.range (pixel_count width height)).map
          (fun p => gray_value (rgb.getD (3 * p) 0) (rgb.getD (3 * p + 1) 0)
            (rgb.getD (3 * p + 2) 0))) := by
  unfold rgb_to_grayscale
  apply fill_buffer_eq_some
  intro i hi
  obtain ⟨h0, h1, h2⟩ := rgb_reads rgb hi hmax hlen
  rw [h0, h1, h2]

/-- C10, counterexample.  For the one-pixel RGB buffer `(R, G, B) = (0, 72, 24)`
the weighted sum `(2989 R + 5870 G + 1140 B) / 10000` is exactly `45`, but the
`double` sum `72 * 0.5870 + 24 * 0.1140` is just below `45` and
`rgb_to_grayscale` stores `44`. -/
theorem rgb_to_grayscale_below_exact_floor :
    rgb_to_grayscale [0, 72, 24] 1 1 = some [44]
    ∧ (44 : Nat) ≠ (2989 * 0 + 5870 * 72 + 1140 * 24) / 10000 := by
  decide

/-- C10, amended (`rgb_to_grayscale`).  For an RGB buffer of
`3 * width * height` bytes (a count in the `int` range) the output has
`width * height` bytes and `gray[p]` is the `double` value of
`(R * 0.2989) + (G * 0.5870) + (B * 0.1140)` with its fraction dropped, where
`R, G, B` are the bytes `3p, 3p + 1, 3p + 2`.  With
`m = 2989 R + 5870 G + 1140 B`: `gray[p] = floor(m / 10000)` whenever `m` is
not a multiple of `10000`, and `gray[p]` is `floor(m / 10000)` or one less
when it is; `gray[p]` always lies in `0 .. 254`, so the conversion to a byte
never overflows. -/
theorem rgb_to_grayscale_spec (rgb : List Nat) (width height : Int)
    (hlen : rgb.length = 3 * pixel_count width height)
    (hmax : 3 * pixel_count width height ≤ 2147483647)
    (hbytes : ∀ v, v ∈ rgb → v ≤ 255) :
    ∃ gray, rgb_to_grayscale rgb width height = some gray
      ∧ gray.length = pixel_count width height
      ∧ (∀ p, p < pixel_count width height →
          ∃ r g b y, rgb[3 * p]? = some r ∧ rgb[3 * p + 1]? = some g
            ∧ rgb[3 * p + 2]? = some b ∧ gray[p]? = some y
            ∧ y = gray_value r g b
            ∧ y ≤ 254
            ∧ ((2989 * r + 5870 * g + 1140 * b) % 10000 ≠ 0 →
                y = (2989 * r + 5870 * g + 1140 * b) / 10000)
            ∧ ((2989 * r + 5870 * g + 1140 * b) % 10000 = 0 →
                y = (2989 * r + 5870 * g + 1140 * b) / 10000
                ∨ y + 1 = (2989 * r + 5870 * g + 1140 * b) / 10000)) := by
  refine ⟨_, rgb_to_grayscale_eq rgb width height hmax (by omega), by simp, ?_⟩
  intro p hp
  have hr := getD_le_of_bytes (l := rgb) (p := 3 * p) (by omega) hbytes
  have hg := getD_le_of_bytes (l := rgb) (p := 3 * p + 1) (by omega) hbytes
  have hb := getD_le_of_bytes (l := rgb) (p := 3 * p + 2) (by omega) hbytes
  obtain ⟨h1, h2, h3⟩ := gray_value_bounds _ _ _ hr hg hb
  exact ⟨rgb.getD (3 * p) 0, rgb.getD (3 * p + 1) 0, rgb.getD (3 * p + 2) 0, _,
    getElem?_getD_of_lt (by omega), getElem?_getD_of_lt (by omega),
    getElem?_getD_of_lt (by omega), getElem?_map_range _ hp, rfl, h1, h2, h3⟩

/-- Witness of the amended C10: a buffer of two RGB pixels. -/
theorem rgb_to_grayscale_spec_witness :
    ∃ gray, rgb_to_grayscale [0, 72, 24, 255, 255, 255] 2 1 = some gray
      ∧ gray.length = pixel_count 2 1 :=
  have ⟨gray, h1, h2, _⟩ := rgb_to_grayscale_spec [0, 72, 24, 255, 255, 255] 2 1
    (by decide) (by decide) (by decide)
  ⟨gray, h1, h2⟩

/-! ## Claims on the worker -/

theorem gray_value_lt (r g b : Nat) : gray_value r g b < 256 := by
  unfold gray_value to_uchar
  exact Nat.mod_lt _ (by norm_num)

theorem getD_map_range {n p : Nat} (g : Nat → Nat) (hp : p < n) :
    ((List.range n).map g).getD p 0 = g p := by
  rw [List.getD_eq_getElem?_getD, getElem?_map_range g hp]
  rfl

/-- `apply_threshold` on a buffer that holds at least `width * height` bytes:
the value written at each position. -/
theorem apply_threshold_eq (input : List Nat) (width height : Int) (t : Nat)
    (hlen : pixel_count width height ≤ input.length) :
    apply_threshold input width height t
      = some ((List.range (pixel_count width height)).map
          (fun p => if input.getD p 0 > t then 255 else 0)) := by
  unfold apply_threshold
  apply fill_buffer_eq_some
  intro i hi
  rw [read_byte_nat, getElem?_getD_of_lt (by omega)]

/-- C7 (mask content).  When frame `i` and frame `i - 1` both load as RGB
images of the same dimensions `w x h` (buffers of `3 * w * h` bytes, a count
in the `int` range), the pass for `i` makes exactly one
`save_jpeg` call, for the mask path of `i` with dimensions `w x h`; the saved
buffer has `w * h` pixels and pixel `p` is `255` when
`|gray(frame i)[p] - gray(frame i-1)[p]| > 20` and `0` otherwise, `gray` being
`rgb_to_grayscale`; every mask pixel is `0` or `255`. -/
theorem mask_content (load_jpeg : List Char → Option Image)
    (input_path output_path : List Char) (i w h : Int) (cur prev : List Nat)
    (hcur : load_jpeg (frame_path input_path i) = some ⟨w, h, cur⟩)
    (hprev : load_jpeg (frame_path input_path (int_sub i 1)) = some ⟨w, h, prev⟩)
    (hclen : cur.length = 3 * pixel_count w h)
    (hplen : prev.length = 3 * pixel_count w h)
    (hmax : 3 * pixel_count w h ≤ 2147483647) :
    ∃ gray_cur gray_prev mask,
      rgb_to_grayscale cur w h = some gray_cur
      ∧ rgb_to_grayscale prev w h = some gray_prev
      ∧ process_frame load_jpeg input_path output_path i
          = [{ frame := i, filename := motion_path output_path i,
               data := some mask, width := w, height := h }]
      ∧ mask.length = pixel_count w h
      ∧ (∀ p, p < pixel_count w h →
          ∃ x y : Nat, gray_cur[p]? = some x ∧ gray_prev[p]? = some y
            ∧ mask[p]? = some (if |(x : Int) - (y : Int)| > 20 then 255 else 0))
      ∧ (∀ v, v ∈ mask → v = 0 ∨ v = 255) := by
  have hgc := rgb_to_grayscale_eq cur w h hmax (by omega)
  have hgp := rgb_to_grayscale_eq prev w h hmax (by omega)
  generalize hC : (List.range (pixel_count w h)).map
      (fun p => gray_value (cur.getD (3 * p) 0) (cur.getD (3 * p + 1) 0)
        (cur.getD (3 * p + 2) 0)) = gc at hgc
  generalize hP : (List.range (pixel_count w h)).map
      (fun p => gray_value (prev.getD (3 * p) 0) (prev.getD (3 * p + 1) 0)
        (prev.getD (3 * p + 2) 0)) = gp at hgp
  have hgcl : gc.length = pixel_count w h := by rw [← hC]; simp
  have hgpl : gp.length = pixel_count w h := by rw [← hP]; simp
  have hgcv : ∀ p, p < pixel_count w h → gc.getD p 0 < 256 := by
    intro p hp
    rw [← hC, getD_map_range _ hp]
    exact gray_value_lt _ _ _
  have hgpv : ∀ p, p < pixel_count w h → gp.getD p 0 < 256 := by
    intro p hp
    rw [← hP, getD_map_range _ hp]
    exact gray_value_lt _ _ _
  have hd := compute_difference_eq gp gc w h (by omega) (by omega)
  generalize hD : (List.range (pixel_count w h)).map
      (fun p => to_uchar (Int.natAbs ((gp.getD p 0 : Int) - (gc.getD p 0 : Int))))
      = diff at hd
  have hdl : diff.length = pixel_count w h := by rw [← hD]; simp
  have ht := apply_threshold_eq diff w h 20 (by omega)
  refine ⟨gc, gp, (List.range (pixel_count w h)).map
    (fun p => if diff.getD p 0 > 20 then 255 else 0), hgc, hgp, ?_, by simp, ?_, ?_⟩
  · unfold process_frame
    simp only [hcur, hprev, hgc, hgp, Option.bind_eq_bind, Option.some_bind, hd, ht]
  · intro p hp
    refine ⟨gc.getD p 0, gp.getD p 0, getElem?_getD_of_lt (by omega),
      getElem?_getD_of_lt (by omega), ?_⟩
    rw [getElem?_map_range _ hp]
    have e : diff.getD p 0
        = to_uchar (Int.natAbs ((gp.getD p 0 : Int) - (gc.getD p 0 : Int))) := by
      rw [← hD, getD_map_range _ hp]
    have h1 := hgcv p hp
    have h2 := hgpv p hp
    have ha : |(gc.getD p 0 : Int) - (gp.getD p 0 : Int)|
        = ((Int.natAbs ((gp.getD p 0 : Int) - (gc.getD p 0 : Int)) : Nat) : Int) := by
      rw [Int.natCast_natAbs, abs_sub_comm]
    show some (if diff.getD p 0 > 20 then 255 else 0) = _
    rw [e, ha]
    unfold to_uchar
    congr 1
    split_ifs <;> omega
  · intro v hv
    rw [List.mem_map] at hv
    obtain ⟨p, _, rfl⟩ := hv
    show (if diff.getD p 0 > 20 then 255 else 0) = 0
      ∨ (if diff.getD p 0 > 20 then 255 else 0) = 255
    split_ifs
    · right; rfl
    · left; rfl

/-- Witness of C7: frame 1 of the directory holding the frames 0 and 1. -/
theorem mask_content_witness :
    ∃ gray_cur gray_prev mask,
      rgb_to_grayscale [25, 25, 25] 1 1 = some gray_cur
      ∧ rgb_to_grayscale [0, 0, 0] 1 1 = some gray_prev
      ∧ process_frame (load_from (frames_in [0, 1])) "in".toList "out".toList 1
          = [{ frame := 1, filename := motion_path "out".toList 1,
               data := some mask, width := 1, height := 1 }]
      ∧ mask.length = pixel_count 1 1
      ∧ (∀ p, p < pixel_count 1 1 →
          ∃ x y : Nat, gray_cur[p]? = some x ∧ gray_prev[p]? = some y
            ∧ mask[p]? = some (if |(x : Int) - (y : Int)| > 20 then 255 else 0))
      ∧ (∀ v, v ∈ mask → v = 0 ∨ v = 255) :=
  mask_content (load_from (frames_in [0, 1])) "in".toList "out".toList 1 1 1
    [25, 25, 25] [0, 0, 0] (by decide) (by decide) (by decide) (by decide) (by decide)

/-- A `save_jpeg` call of the pass for `x` carries the counter `x` and the mask
path of `x`, and both loads of the pass succeeded. -/
theorem mem_process_frame {load_jpeg : List Char → Option Image}
    {inp out : List Char} {x : Int} {c : SaveCall}
    (hc : c ∈ process_frame load_jpeg inp out x) :
    c.frame = x ∧ c.filename = motion_path out x
      ∧ (load_jpeg (frame_path inp x)).isSome = true
      ∧ (load_jpeg (frame_path inp (int_sub x 1))).isSome = true := by
  unfold process_frame at hc
  cases h1 : load_jpeg (frame_path inp x) with
  | none => simp [h1] at hc
  | some f =>
    cases h2 : load_jpeg (frame_path inp (int_sub x 1)) with
    | none => simp [h1, h2] at hc
    | some p =>
      simp only [h1, h2, List.mem_singleton] at hc
      subst hc
      exact ⟨rfl, rfl, rfl, rfl⟩

/-- The pass for `x` makes a `save_jpeg` call as soon as both loads succeed. -/
theorem process_frame_saves {load_jpeg : List Char → Option Image}
    {inp : List Char} (out : List Char) {x : Int}
    (h1 : (load_jpeg (frame_path inp x)).isSome = true)
    (h2 : (load_jpeg (frame_path inp (int_sub x 1))).isSome = true) :
    ∃ c, c ∈ process_frame load_jpeg inp out x ∧ c.frame = x := by
  obtain ⟨f, hf⟩ := Option.isSome_iff_exists.mp h1
  obtain ⟨p, hp⟩ := Option.isSome_iff_exists.mp h2
  unfold process_frame
  simp only [hf, hp]
  exact ⟨_, List.mem_singleton.mpr rfl, rfl⟩

/-- The `save_jpeg` calls of a run are those of the passes for the frames its
workers pass through. -/
theorem mem_process_frames_with_threads {load_jpeg : List Char → Option Image}
    {k T s : Int} {inp out : List Char} {c : SaveCall} :
    c ∈ process_frames_with_threads load_jpeg k inp out T s
      ↔ ∃ x, x ∈ visited_frames k T s ∧ c ∈ process_frame load_jpeg inp out x := by
  unfold process_frames_with_threads visited_frames process_frame_batch
  simp only [List.mem_flatMap]
  constructor
  · rintro ⟨i, hi, x, hx, hc⟩
    exact ⟨x, ⟨i, hi, hx⟩, hc⟩
  · rintro ⟨x, ⟨i, hi, hx⟩, hc⟩
    exact ⟨i, hi, x, hx, hc⟩

/-! ## Facts about decimal formatting -/

theorem digit_char_facts (d : Nat) (hd : d < 10) :
    isdigit (digit_char d) = true ∧ (digit_char d).toNat - 48 = d
      ∧ (digit_char d = '0' → d = 0) ∧ isspace (digit_char d) = false
      ∧ digit_char d ≠ '-' ∧ digit_char d ≠ '+' := by
  interval_cases d <;> decide

theorem digits_value_append (ds : List Char) (c : Char) :
    digits_value (ds ++ [c]) = 10 * digits_value ds + (c.toNat - 48) := by
  unfold digits_value
  rw [List.foldl_append]
  rfl

/-- The digits that `nat_digits` puts in front of `acc`, given enough fuel. -/
theorem nat_digits_spec (fuel : Nat) : ∀ (n : Nat) (acc : List Char), n < fuel →
    ∃ ds, nat_digits fuel n acc = ds ++ acc ∧ ds ≠ []
      ∧ (∀ c, c ∈ ds → isdigit c = true) ∧ digits_value ds = n
      ∧ (ds.head? = some '0' → n = 0) := by
  induction fuel with
  | zero => intro n acc h; omega
  | succ f ih =>
    intro n acc h
    unfold nat_digits
    by_cases h10 : n < 10
    · rw [if_pos h10]
      obtain ⟨h1, h2, h3, _⟩ := digit_char_facts n h10
      refine ⟨[digit_char n], rfl, by simp, ?_, ?_, ?_⟩
      · intro c hc
        rw [List.mem_singleton.mp hc]
        exact h1
      · simp [digits_value, h2]
      · intro hh
        simp only [List.head?_cons, Option.some.injEq] at hh
        exact h3 hh
    · rw [if_neg h10]
      obtain ⟨ds, e, hne, hdig, hval, hhead⟩ :=
        ih (n / 10) (digit_char (n % 10) :: acc) (by omega)
      obtain ⟨h1, h2, _⟩ := digit_char_facts (n % 10) (Nat.mod_lt _ (by norm_num))
      refine ⟨ds ++ [digit_char (n % 10)], by rw [e]; simp, by simp, ?_, ?_, ?_⟩
      · intro c hc
        rcases List.mem_append.mp hc with hc | hc
        · exact hdig c hc
        · rw [List.mem_singleton.mp hc]
          exact h1
      · rw [digits_value_append, hval, h2]
        omega
      · intro hh
        have : ds.head? = some '0' := by
          cases ds with
          | nil => exact absurd rfl hne
          | cons a l => simpa using hh
        have := hhead this
        omega

/-- The output of `%d`: an optional `-` and the digits of the absolute value. -/
theorem format_d_spec (x : Int) :
    ∃ ds, ds ≠ [] ∧ (∀ c, c ∈ ds → isdigit c = true)
      ∧ (digits_value ds : Int) = |x|
      ∧ (ds.head? = some '0' → x = 0)
      ∧ format_d x = if x < 0 then '-' :: ds else ds := by
  obtain ⟨ds, e, hne, hdig, hval, hhead⟩ :=
    nat_digits_spec (x.natAbs + 1) x.natAbs [] (by omega)
  rw [List.append_nil] at e
  refine ⟨ds, hne, hdig, ?_, ?_, ?_⟩
  · rw [hval, Int.natCast_natAbs]
  · intro hh
    have := hhead hh
    omega
  · unfold format_d
    rw [e]

/-- Only frame `0` has a `%d` output that starts with the character `0`. -/
theorem format_d_head_zero (x : Int) (h : (format_d x).head? = some '0') : x = 0 := by
  obtain ⟨ds, hne, _, _, hhead, e⟩ := format_d_spec x
  rw [e] at h
  by_cases hx : x < 0
  · rw [if_pos hx] at h
    simp at h
  · rw [if_neg hx] at h
    exact hhead h

theorem format_d_ne_nil (x : Int) : format_d x ≠ [] := by
  obtain ⟨ds, hne, _, _, _, e⟩ := format_d_spec x
  rw [e]
  split_ifs
  · simp
  · exact hne

/-- The mask path of a frame other than `0` is never the file
`motion_frame_0.jpg` of the output directory. -/
theorem motion_path_eq_zero {out : List Char} {j : Int}
    (h : motion_path out j = out ++ "/motion_frame_0.jpg".toList) : j = 0 := by
  apply format_d_head_zero
  unfold motion_path snprintf at h
  obtain ⟨c, l, hcl⟩ := List.exists_cons_of_ne_nil (format_d_ne_nil j)
  rw [hcl] at h ⊢
  have hlen := congrArg List.length h
  simp only [List.length_take, List.length_append, List.length_cons, String.toList,
    String.length] at hlen
  have hpos : out.length + 14 < 255 := by
    have a1 : "/motion_frame_".data.length = 14 := rfl
    have a2 : ".jpg".data.length = 4 := rfl
    have a3 : "/motion_frame_0.jpg".data.length = 19 := rfl
    omega
  have hget := congrArg (fun (s : List Char) => s[out.length + 14]?) h
  simp only [List.getElem?_take, hpos, if_true] at hget
  have e1 : (out ++ "/motion_frame_".toList ++ c :: l ++ ".jpg".toList)[out.length + 14]?
      = some c := by
    have : out ++ "/motion_frame_".toList ++ c :: l ++ ".jpg".toList
        = (out ++ "/motion_frame_".toList) ++ (c :: (l ++ ".jpg".toList)) := by simp
    rw [this, List.getElem?_append_right (by simp [String.toList])]
    simp [String.toList]
  have e2 : (out ++ "/motion_frame_0.jpg".toList)[out.length + 14]? = some '0' := by
    rw [List.getElem?_append_right (by omega)]
    simp [String.toList]
  rw [e1, e2] at hget
  simp only [List.head?_cons]
  exact hget

/-- C6, counterexample.  In a directory that holds `frame_-1.jpg` next to
`frame_0.jpg`, the worker for the range `[0, 0]` loads `in/frame_-1.jpg` as
predecessor of frame 0 and saves `out/motion_frame_0.jpg`. -/
theorem frame_zero_mask_written :
    frame_path "in".toList (int_sub 0 1) = "in/frame_-1.jpg".toList
    ∧ process_frame_batch
        (load_from [("in/frame_-1.jpg".toList, gray_pixel 0),
          ("in/frame_0.jpg".toList, gray_pixel 100)])
        { start_frame := 0, end_frame := 0, input_path := "in".toList,
          output_path := "out".toList }
      = [{ frame := 0, filename := "out/motion_frame_0.jpg".toList,
           data := some [255], width := 1, height := 1 }] := by
  decide

/-- C6, amended (frame 0 has no mask).  For a worker range `[a, b]` with
`a ≤ 0 ≤ b` and any directory content in which the predecessor path of frame
0, `<input>/frame_-1.jpg`, does not load, `process_frame_batch` makes no
`save_jpeg` call in the pass for frame 0 and none for the file
`<output>/motion_frame_0.jpg`. -/
theorem frame_zero_no_mask (load_jpeg : List Char → Option Image) (data : ThreadData)
    (ha : data.start_frame ≤ 0) (hb : 0 ≤ data.end_frame)
    (hneg : load_jpeg (frame_path data.input_path (-1)) = none) :
    0 ∈ frame_indices data.start_frame data.end_frame
    ∧ frame_path data.input_path (int_sub 0 1)
        = snprintf 256 (data.input_path ++ "/frame_-1.jpg".toList)
    ∧ (∀ c, c ∈ process_frame_batch load_jpeg data → c.frame ≠ 0)
    ∧ (∀ c, c ∈ process_frame_batch load_jpeg data →
        c.filename ≠ data.output_path ++ "/motion_frame_0.jpg".toList) := by
  have hframe : ∀ c, c ∈ process_frame_batch load_jpeg data → c.frame ≠ 0 := by
    intro c hc h0
    unfold process_frame_batch at hc
    obtain ⟨x, _, hcx⟩ := List.mem_flatMap.mp hc
    obtain ⟨h1, _, _, h4⟩ := mem_process_frame hcx
    rw [← h1, h0, show int_sub 0 1 = -1 from rfl, hneg] at h4
    exact absurd h4 (by simp)
  refine ⟨mem_frame_indices.mpr ⟨ha, hb⟩, ?_, hframe, ?_⟩
  · unfold frame_path
    simp [show int_sub 0 1 = -1 from rfl, show format_d (-1) = ['-', '1'] from rfl,
      String.toList]
  · intro c hc hname
    apply hframe c hc
    unfold process_frame_batch at hc
    obtain ⟨x, _, hcx⟩ := List.mem_flatMap.mp hc
    obtain ⟨h1, h2, _⟩ := mem_process_frame hcx
    rw [h2] at hname
    rw [h1]
    exact motion_path_eq_zero hname

/-- Witness of the amended C6: the frames 0, 1, 2 processed by one worker over
`[0, 2]`. -/
theorem frame_zero_no_mask_witness :
    (∀ c, c ∈ process_frame_batch (load_from (frames_in [0, 1, 2]))
        { start_frame := 0, end_frame := 2, input_path := "in".toList,
          output_path := "out".toList } → c.frame ≠ 0)
    ∧ (∀ c, c ∈ process_frame_batch (load_from (frames_in [0, 1, 2]))
        { start_frame := 0, end_frame := 2, input_path := "in".toList,
          output_path := "out".toList } →
      c.filename ≠ "out".toList ++ "/motion_frame_0.jpg".toList) :=
  (frame_zero_no_mask (load_from (frames_in [0, 1, 2]))
    { start_frame := 0, end_frame := 2, input_path := "in".toList,
      output_path := "out".toList } (by decide) (by decide) (by decide)).2.2

/-! ## Facts about `sscanf` -/

theorem span_append_stop {p : Char → Bool} {l r : List Char}
    (hl : ∀ c, c ∈ l → p c = true) (hr : ∀ c t, r = c :: t → p c = false) :
    (l ++ r).span p = (l, r) := by
  rw [List.span_eq_take_drop, List.takeWhile_append_of_pos hl,
    List.dropWhile_append_of_pos hl]
  cases r with
  | nil => simp
  | cons c t =>
    have := hr c t rfl
    rw [List.takeWhile_cons_of_neg (by simp [this]),
      List.dropWhile_cons_of_neg (by simp [this])]
    simp

theorem skip_space_of_head {c : Char} {t : List Char} (h : isspace c = false) :
    skip_space (c :: t) = c :: t := by
  unfold skip_space
  rw [List.dropWhile_cons_of_neg (by simp [h])]

theorem skip_space_blank (l : List Char) : skip_space (' ' :: l) = skip_space l := by
  unfold skip_space
  rw [List.dropWhile_cons_of_pos (by decide)]

/-- `%s` reads back a non-empty token without white space that is followed by
white space or by the end of the input. -/
theorem scan_s_token {k r : List Char} (hne : k ≠ [])
    (htok : ∀ c, c ∈ k → isspace c = false)
    (hrest : ∀ c t, r = c :: t → isspace c = true) :
    scan_s (k ++ r) = some (k, r) := by
  obtain ⟨a, l, rfl⟩ := List.exists_cons_of_ne_nil hne
  unfold scan_s
  rw [List.cons_append, skip_space_of_head (htok a (List.mem_cons_self a l)),
    ← List.cons_append,
    span_append_stop (p := fun c => !isspace c)
      (fun c hc => by simp [htok c hc]) (fun c t e => by simp [hrest c t e])]

theorem scan_sign_of_digit {c : Char} {t : List Char} (h : isdigit c = true) :
    scan_sign (c :: t) = (false, c :: t) := by
  unfold scan_sign
  split
  · rename_i heq
    simp only [List.cons.injEq] at heq
    rw [heq.1] at h
    exact absurd h (by decide)
  · rename_i heq
    simp only [List.cons.injEq] at heq
    rw [heq.1] at h
    exact absurd h (by decide)
  · rfl

theorem isspace_of_isdigit {c : Char} (h : isdigit c = true) : isspace c = false := by
  unfold isdigit at h
  unfold isspace
  simp only [Bool.and_eq_true, decide_eq_true_eq] at h
  have hc : ∀ d : Char, d.toNat < 48 → c ≠ d := by
    rintro d hd rfl
    omega
  simp [hc ' ' (by decide), hc '\t' (by decide), hc '\n' (by decide),
    hc '\x0b' (by decide), hc '\x0c' (by decide), hc '\r' (by decide)]

/-- `%d` reads back the output of `%d` for an `int` that is followed by a
character that is not a digit or by the end of the input. -/
theorem scan_d_format_d {x : Int} {rest : List Char}
    (hx0 : INT_MIN ≤ x) (hx1 : x ≤ INT_MAX)
    (hrest : ∀ c t, rest = c :: t → isdigit c = false) :
    scan_d (format_d x ++ rest) = some (x, rest) := by
  unfold INT_MIN at hx0
  unfold INT_MAX at hx1
  obtain ⟨ds, hne, hdig, hval, _, e⟩ := format_d_spec x
  obtain ⟨a, l, rfl⟩ := List.exists_cons_of_ne_nil hne
  have ha : isdigit a = true := hdig a (List.mem_cons_self a l)
  have hspan : ((a :: l) ++ rest).span isdigit = (a :: l, rest) :=
    span_append_stop hdig hrest
  unfold scan_d
  by_cases hneg : x < 0
  · rw [e, if_pos hneg, List.cons_append, skip_space_of_head (by decide)]
    simp only [scan_sign, hspan, if_true]
    rw [hval, abs_of_neg hneg, neg_neg, wrap32_of_range (by omega) (by omega)]
  · rw [e, if_neg hneg, List.cons_append, skip_space_of_head (isspace_of_isdigit ha),
      scan_sign_of_digit ha]
    rw [List.cons_append] at hspan
    simp only [hspan]
    rw [hval, abs_of_nonneg (by omega)]
    simp [wrap32_of_range (x := x) (by omega) (by omega)]

/-! ## Claims on the task message -/

/-- C4 (protocol round trip).  For non-empty directory names without white
space and `int`s `start`, `end` such that the formatted message fits the
1024-byte buffer and each name fits the helper's `MAX_PATH` array, the
helper's `sscanf` of the coordinator's message (the helper's buffer holds
the bytes as sent) yields exactly the same `inputDir`, `outputDir`, `start`
and `end`.  With a total of 10 frames the
message is `PROCESS in out 5 9` and it is parsed back to the range `[5, 9]`. -/
theorem protocol_round_trip (input_path output_path : List Char)
    (start_frame end_frame : Int)
    (hin : input_path ≠ []) (hout : output_path ≠ [])
    (hinw : ∀ c, c ∈ input_path → isspace c = false)
    (houtw : ∀ c, c ∈ output_path → isspace c = false)
    (hs0 : INT_MIN ≤ start_frame) (hs1 : start_frame ≤ INT_MAX)
    (he0 : INT_MIN ≤ end_frame) (he1 : end_frame ≤ INT_MAX)
    (hfit : (task_text input_path output_path start_frame end_frame).length < 1024)
    (hinl : input_path.length < MAX_PATH) (houtl : output_path.length < MAX_PATH) :
    sscanf_task (task_message input_path output_path start_frame end_frame)
      = some ⟨some input_path, some output_path, some start_frame, some end_frame⟩
    ∧ (∃ c, start_server_mode 10 = some c
        ∧ task_message "in".toList "out".toList c.task_start c.task_end
            = "PROCESS in out 5 9".toList
        ∧ sscanf_task "PROCESS in out 5 9".toList
            = some ⟨some "in".toList, some "out".toList, some 5, some 9⟩) := by
  refine ⟨?_, ⟨⟨5, 0, 5, 9⟩, by decide, by decide, by decide⟩⟩
  have hmsg : task_message input_path output_path start_frame end_frame
      = task_text input_path output_path start_frame end_frame := by
    unfold task_message snprintf
    exact List.take_of_length_le (by omega)
  have htext : task_text input_path output_path start_frame end_frame
      = "PROCESS".toList ++ (' ' :: (input_path ++ (' ' :: (output_path
          ++ (' ' :: (format_d start_frame ++ (' ' :: (format_d end_frame ++ [])))))))) := by
    unfold task_text
    simp [String.toList]
  have hsp : ∀ (r : List Char) (c : Char) (t : List Char), ' ' :: r = c :: t →
      isspace c = true := by
    intro r c t e
    simp only [List.cons.injEq] at e
    rw [← e.1]
    rfl
  have hnd : ∀ (r : List Char) (c : Char) (t : List Char), ' ' :: r = c :: t →
      isdigit c = false := by
    intro r c t e
    simp only [List.cons.injEq] at e
    rw [← e.1]
    rfl
  obtain ⟨a, l, hal⟩ := List.exists_cons_of_ne_nil hin
  obtain ⟨b, m, hbm⟩ := List.exists_cons_of_ne_nil hout
  have ha : isspace a = false := hinw a (by rw [hal]; exact List.mem_cons_self a l)
  have hb : isspace b = false := houtw b (by rw [hbm]; exact List.mem_cons_self b m)
  have h1 : ∀ r, match_literal "PROCESS".toList ("PROCESS".toList ++ r) = some r := by
    intro r
    simp [match_literal, String.toList]
  have h2 : ∀ r, skip_space (' ' :: (input_path ++ r)) = input_path ++ r := by
    intro r
    rw [skip_space_blank, hal, List.cons_append, skip_space_of_head ha]
  have h3 : ∀ r, skip_space (' ' :: (output_path ++ r)) = output_path ++ r := by
    intro r
    rw [skip_space_blank, hbm, List.cons_append, skip_space_of_head hb]
  have h4 : ∀ x r, skip_space (' ' :: (format_d x ++ r)) = skip_space (format_d x ++ r) :=
    fun x r => skip_space_blank _
  have h5 : ∀ x (r : List Char), INT_MIN ≤ x → x ≤ INT_MAX →
      (∀ c t, r = c :: t → isdigit c = false) →
      scan_d (skip_space (format_d x ++ r)) = some (x, r) := by
    intro x r hx0 hx1 hr
    have := scan_d_format_d hx0 hx1 hr
    unfold scan_d at this ⊢
    unfold skip_space at this ⊢
    rw [List.dropWhile_idempotent]
    exact this
  have s1 := scan_s_token (r := ' ' :: (output_path ++ (' ' :: (format_d start_frame
    ++ (' ' :: (format_d end_frame ++ [])))))) hin hinw (hsp _)
  have s2 := scan_s_token (r := ' ' :: (format_d start_frame
    ++ (' ' :: (format_d end_frame ++ [])))) hout houtw (hsp _)
  have d1 := h5 start_frame (' ' :: (format_d end_frame ++ [])) hs0 hs1 (hnd _)
  have d2 := h5 end_frame [] he0 he1 (by intro c t e; exact absurd e (by simp))
  have i1 : ¬ MAX_PATH ≤ input_path.length := by omega
  have i2 : ¬ MAX_PATH ≤ output_path.length := by omega
  rw [hmsg, htext]
  unfold sscanf_task
  simp only [h1, h2, s1, if_neg i1, h3, s2, if_neg i2, h4, d1, d2]

/-- Witness of C4: the task `in`, `out`, `[5, 9]`. -/
theorem protocol_round_trip_witness :
    sscanf_task (task_message "in".toList "out".toList 5 9)
      = some ⟨some "in".toList, some "out".toList, some 5, some 9⟩ :=
  (protocol_round_trip "in".toList "out".toList 5 9 (by decide) (by decide)
    (by decide) (by decide) (by decide) (by decide) (by decide) (by decide)
    (by decide) (by decide) (by decide)).1

/-! ## Claims on mask dimensions and on degenerate partitions -/

/-- The dimensions passed to `save_jpeg` are those of the predecessor frame,
loaded last. -/
theorem save_dimensions {load_jpeg : List Char → Option Image}
    {inp out : List Char} {x : Int} {c : SaveCall}
    (hc : c ∈ process_frame load_jpeg inp out x) :
    ∃ prev, load_jpeg (frame_path inp (int_sub x 1)) = some prev
      ∧ c.width = prev.width ∧ c.height = prev.height := by
  unfold process_frame at hc
  cases h1 : load_jpeg (frame_path inp x) with
  | none => simp [h1] at hc
  | some f =>
    cases h2 : load_jpeg (frame_path inp (int_sub x 1)) with
    | none => simp [h1, h2] at hc
    | some p =>
      simp only [h1, h2, List.mem_singleton] at hc
      subst hc
      exact ⟨p, rfl, rfl, rfl⟩

/-- C12 (mask dimensions), the code at a failing input.  Frame 1 is a 2 x 1
image and its predecessor frame 0 a 1 x 1 image; both load.  The worker for
the range `[1, 1]` calls `save_jpeg` for `out/motion_frame_1.jpg` with width 1
and height 1, the dimensions of the predecessor, not with the width 2 of
frame 1. -/
theorem mask_dimensions_of_predecessor :
    load_from [("in/frame_0.jpg".toList, ⟨1, 1, [0, 0, 0]⟩),
        ("in/frame_1.jpg".toList, ⟨2, 1, [200, 200, 200, 200, 200, 200]⟩)]
      (frame_path "in".toList 1) = some ⟨2, 1, [200, 200, 200, 200, 200, 200]⟩
    ∧ process_frame_batch
        (load_from [("in/frame_0.jpg".toList, ⟨1, 1, [0, 0, 0]⟩),
          ("in/frame_1.jpg".toList, ⟨2, 1, [200, 200, 200, 200, 200, 200]⟩)])
        { start_frame := 1, end_frame := 1, input_path := "in".toList,
          output_path := "out".toList }
      = [{ frame := 1, filename := "out/motion_frame_1.jpg".toList,
           data := some [255], width := 1, height := 1 }] := by
  decide

/-- C13, counterexample.  Three frames from frame 0 on four threads:
`frames_per_thread` is 0 and the sub-range of thread 0 is `[0, -1]`, with its
start after its end. -/
theorem sub_range_start_after_end :
    (0 : Int) ≤ 0 ∧ (0 : Int) ≤ 3 - 1 ∧ (1 : Int) ≤ 4 ∧ (0 : Int) ∈ thread_ids 4
    ∧ (thread_data [] [] 3 0 4 0).start_frame = 0
    ∧ (thread_data [] [] 3 0 4 0).end_frame = -1
    ∧ ¬ ((thread_data [] [] 3 0 4 0).start_frame
          ≤ (thread_data [] [] 3 0 4 0).end_frame) := by
  decide

/-- C13, amended (FrameRange invariant).  For a non-empty requested range
`[s, N - 1]` and `k ≥ 1` threads, every sub-range that
`process_frames_with_threads` assigns satisfies `start_frame ≤ end_frame` if
and only if there are at least as many frames as threads, `k ≤ N - s`. -/
theorem sub_range_invariant (inp out : List Char) (s N k : Int)
    (hs : 0 ≤ s) (hsN : s ≤ N - 1) (hN : N ≤ INT_MAX) (hk : 1 ≤ k)
    (hkmax : k ≤ INT_MAX) :
    (∀ i, i ∈ thread_ids k →
        (thread_data inp out N s k i).start_frame
          ≤ (thread_data inp out N s k i).end_frame)
      ↔ k ≤ N - s := by
  have hsN' : s ≤ N := by omega
  have hq0 : 0 ≤ (N - s) / k := Int.ediv_nonneg (by omega) (by omega)
  constructor
  · intro h
    by_contra hlt
    have hk2 : 0 + 1 < k := by omega
    have h0 := h 0 (mem_thread_ids.mpr ⟨le_refl 0, by omega⟩)
    rw [thread_data_start_frame inp out hs hsN' hN hk (le_refl 0) (by omega),
      thread_data_end_frame_inner inp out hs hsN' hN hk hkmax (le_refl 0) hk2] at h0
    have hz : (N - s) / k = 0 := Int.ediv_eq_zero_of_lt (by omega) (by omega)
    rw [hz] at h0
    omega
  · intro hle i hi
    rw [mem_thread_ids] at hi
    have hq1 : 1 ≤ (N - s) / k := by
      have := Int.ediv_le_ediv (by omega : (0 : Int) < k) hle
      rw [Int.ediv_self (by omega)] at this
      exact this
    by_cases hl : i = k - 1
    · have hw := thread_data_within inp out hs hsN' hN hk hkmax hi.1 hi.2
      have hb := shares_le_length (L := N - s) (i := k - 1 + 1) (by omega) hk
        (by omega) (by omega)
      subst hl
      rw [thread_data_start_frame inp out hs hsN' hN hk hi.1 hi.2,
        thread_data_end_frame_last inp out hs hsN' hN hk hkmax]
      have e : (k - 1 + 1) * ((N - s) / k)
          = (k - 1) * ((N - s) / k) + (N - s) / k := by ring
      omega
    · rw [thread_data_start_frame inp out hs hsN' hN hk hi.1 hi.2,
        thread_data_end_frame_inner inp out hs hsN' hN hk hkmax hi.1 (by omega)]
      have e : (i + 1) * ((N - s) / k) = i * ((N - s) / k) + (N - s) / k := by ring
      omega

/-- Witness of the amended C13: ten frames from frame 0 on four threads. -/
theorem sub_range_invariant_witness :
    (∀ i, i ∈ thread_ids 4 →
        (thread_data [] [] 10 0 4 i).start_frame
          ≤ (thread_data [] [] 10 0 4 i).end_frame)
      ↔ (4 : Int) ≤ 10 - 0 :=
  sub_range_invariant [] [] 0 10 4 (by decide) (by decide) (by decide) (by decide)
    (by decide)
/-- For a length `N - s ≤ 0` that does not overflow, `frames_per_thread` is the
quotient truncated toward zero: minus the floor of `(s - N) / k`. -/
theorem frames_per_thread_nonpos {N s k : Int} (hsN : N ≤ s)
    (hlen : INT_MIN ≤ N - s) (hk : 1 ≤ k) :
    frames_per_thread N s k = -((s - N) / k) := by
  unfold INT_MIN at hlen
  have hq0 : 0 ≤ (s - N) / k := Int.ediv_nonneg (by omega) (by omega)
  have hq1 : (s - N) / k ≤ s - N := Int.ediv_le_self k (by omega)
  have e1 : wrap32 (N - s) = N - s := wrap32_of_range (by omega) (by omega)
  have e2 : Int.tdiv (N - s) k = -((s - N) / k) := by
    have : N - s = -(s - N) := by ring
    rw [this, Int.neg_tdiv, Int.tdiv_eq_ediv (by omega) (by omega)]
  have e3 : wrap32 (-((s - N) / k)) = -((s - N) / k) :=
    wrap32_of_range (by omega) (by omega)
  simp only [frames_per_thread, int_div, int_sub, e1, e2, e3]

/-- With a length `N - s ≤ 0` every sub-range ends before it starts. -/
theorem thread_data_empty (inp out : List Char) {N s k i : Int}
    (hsN : N ≤ s) (hsmax : s ≤ INT_MAX) (hlen : INT_MIN ≤ N - s)
    (hN : INT_MIN < N) (hk : 1 ≤ k) (hkmax : k ≤ INT_MAX)
    (hi0 : 0 ≤ i) (hik : i < k) :
    (thread_data inp out N s k i).end_frame
      < (thread_data inp out N s k i).start_frame := by
  have hf := frames_per_thread_nonpos hsN hlen hk
  have hq0 : 0 ≤ (s - N) / k := Int.ediv_nonneg (by omega) (by omega)
  have hb := shares_le_length (L := s - N) (i := i) (by omega) hk hi0 (by omega)
  have hb1 := shares_le_length (L := s - N) (i := i + 1) (by omega) hk (by omega)
    (by omega)
  have em : i * -((s - N) / k) = -(i * ((s - N) / k)) := by ring
  have em1 : (i + 1) * -((s - N) / k) = -((i + 1) * ((s - N) / k)) := by ring
  have ex : (i + 1) * ((s - N) / k) = i * ((s - N) / k) + (s - N) / k := by ring
  unfold INT_MAX at hsmax hkmax
  unfold INT_MIN at hlen hN
  have e0 : wrap32 (k - 1) = k - 1 := wrap32_of_range (by omega) (by omega)
  have e1 : wrap32 (-(i * ((s - N) / k))) = -(i * ((s - N) / k)) :=
    wrap32_of_range (by omega) (by omega)
  have e2 : wrap32 (s + -(i * ((s - N) / k))) = s + -(i * ((s - N) / k)) :=
    wrap32_of_range (by omega) (by omega)
  have e3 : wrap32 (N - 1) = N - 1 := wrap32_of_range (by omega) (by omega)
  have e4 : wrap32 (i + 1) = i + 1 := wrap32_of_range (by omega) (by omega)
  have e5 : wrap32 (-((i + 1) * ((s - N) / k))) = -((i + 1) * ((s - N) / k)) :=
    wrap32_of_range (by omega) (by omega)
  have e6 : wrap32 (s + -((i + 1) * ((s - N) / k)))
      = s + -((i + 1) * ((s - N) / k)) :=
    wrap32_of_range (by omega) (by omega)
  have e7 : wrap32 (s + -((i + 1) * ((s - N) / k)) - 1)
      = s + -((i + 1) * ((s - N) / k)) - 1 :=
    wrap32_of_range (by omega) (by omega)
  by_cases hl : i = k - 1
  · simp only [thread_data, hf, int_add, int_mul, int_sub, e0, if_pos hl, em, e1, e2,
      e3]
    omega
  · simp only [thread_data, hf, int_add, int_mul, int_sub, e0, if_neg hl, em, e1, e2,
      e4, em1, e5, e6, e7]
    omega

/-- With a length `N - s ≤ 0` no worker loop makes a pass. -/
theorem visited_frames_empty {N s k : Int}
    (hsN : N ≤ s) (hsmax : s ≤ INT_MAX) (hlen : INT_MIN ≤ N - s)
    (hN : INT_MIN < N) (hk : 1 ≤ k) (hkmax : k ≤ INT_MAX) :
    visited_frames k N s = [] := by
  apply List.eq_nil_iff_forall_not_mem.mpr
  intro x hx
  unfold visited_frames at hx
  obtain ⟨i, hi, hxi⟩ := List.mem_flatMap.mp hx
  rw [mem_thread_ids] at hi
  rw [mem_frame_indices] at hxi
  have := thread_data_empty [] [] hsN hsmax hlen hN hk hkmax hi.1 hi.2
  omega

/-- C17, counterexample.  With the total `INT_MIN`, start frame 0 and one
thread, `total_frames - 1` leaves the `int` range: the sub-range of the
thread is `[0, INT_MAX]`, its loop makes a pass for frame 1 and, in a
directory holding the frames 0 and 1, saves the mask of frame 1. -/
theorem negative_total_processes_frames :
    INT_MIN ≤ 0 ∧ (0 : Int) ∈ thread_ids 1
    ∧ (thread_data "in".toList "out".toList INT_MIN 0 1 0).start_frame = 0
    ∧ (thread_data "in".toList "out".toList INT_MIN 0 1 0).end_frame = INT_MAX
    ∧ ¬ ((thread_data "in".toList "out".toList INT_MIN 0 1 0).end_frame
          < (thread_data "in".toList "out".toList INT_MIN 0 1 0).start_frame)
    ∧ (1 : Int) ∈ visited_frames 1 INT_MIN 0
    ∧ (∃ c, c ∈ process_frames_with_threads (load_from (frames_in [0, 1])) 1
          "in".toList "out".toList INT_MIN 0
        ∧ c.filename = "out/motion_frame_1.jpg".toList) := by
  have hv : (1 : Int) ∈ visited_frames 1 INT_MIN 0 := by
    unfold visited_frames
    refine List.mem_flatMap.mpr ⟨0, by decide, ?_⟩
    rw [mem_frame_indices]
    decide
  refine ⟨by decide, by decide, by decide, by decide, by decide, hv, ?_⟩
  refine ⟨{ frame := 1, filename := "out/motion_frame_1.jpg".toList,
            data := some [255], width := 1, height := 1 }, ?_, rfl⟩
  exact mem_process_frames_with_threads.mpr ⟨1, hv, by decide⟩

/-- C17, amended (empty or negative length).  For a start `s` (in particular
every `s ≥ 0`), a total `N ≤ s` for which neither `N - s` nor `N - 1` leaves
the `int` range, and
`k ≥ 1` threads, `frames_per_thread` is the quotient truncated toward zero and
every sub-range of `process_frames_with_threads` has `end_frame < start_frame`;
no worker loop makes a pass, so no frame is loaded and no mask is written.
This covers `N = -1` and `N = 0` with `s = 0`. -/
theorem empty_length_processes_nothing (load_jpeg : List Char → Option Image)
    (inp out : List Char) (s N k : Int)
    (hsN : N ≤ s) (hsmax : s ≤ INT_MAX) (hlen : INT_MIN ≤ N - s)
    (hN : INT_MIN < N) (hk : 1 ≤ k) (hkmax : k ≤ INT_MAX) :
    frames_per_thread N s k = Int.tdiv (N - s) k
    ∧ (∀ i, i ∈ thread_ids k →
        (thread_data inp out N s k i).end_frame
          < (thread_data inp out N s k i).start_frame)
    ∧ visited_frames k N s = []
    ∧ process_frames_with_threads load_jpeg k inp out N s = []
    ∧ visited_frames k (-1) 0 = [] ∧ visited_frames k 0 0 = []
    ∧ process_frames_with_threads load_jpeg k inp out (-1) 0 = []
    ∧ process_frames_with_threads load_jpeg k inp out 0 0 = [] := by
  have hrun : ∀ T b, visited_frames k T b = [] →
      process_frames_with_threads load_jpeg k inp out T b = [] := by
    intro T b hv
    apply List.eq_nil_iff_forall_not_mem.mpr
    intro c hc
    obtain ⟨x, hx, _⟩ := mem_process_frames_with_threads.mp hc
    rw [hv] at hx
    exact absurd hx (List.not_mem_nil x)
  have hv := visited_frames_empty hsN hsmax hlen hN hk hkmax
  have hv1 : visited_frames k (-1) 0 = [] :=
    visited_frames_empty (by decide) (by decide) (by decide) (by decide) hk hkmax
  have hv0 : visited_frames k 0 0 = [] :=
    visited_frames_empty (by decide) (by decide) (by decide) (by decide) hk hkmax
  refine ⟨?_, ?_, hv, hrun N s hv, hv1, hv0, hrun _ _ hv1, hrun _ _ hv0⟩
  · rw [frames_per_thread_nonpos hsN hlen hk]
    have : N - s = -(s - N) := by ring
    unfold INT_MAX at hsmax
    rw [this, Int.neg_tdiv, Int.tdiv_eq_ediv (by omega) (by omega)]
  · intro i hi
    rw [mem_thread_ids] at hi
    exact thread_data_empty inp out hsN hsmax hlen hN hk hkmax hi.1 hi.2

/-- Witness of the amended C17: the error value `-1` of
`count_frames_in_directory` passed on by menu option 2, with four threads. -/
theorem empty_length_processes_nothing_witness :
    process_frames_with_threads (load_from (frames_in [0, 1])) 4 "in".toList
      "out".toList (-1) 0 = [] :=
  (empty_length_processes_nothing (load_from (frames_in [0, 1])) "in".toList
    "out".toList 0 (-1) 4 (by decide) (by decide) (by decide) (by decide) (by decide)
    (by decide)).2.2.2.1

/-! ## Claims on the two-node run -/

/-- The frames for which a run with total `T` from start `s` saves a mask,
whatever the directory holds. -/
theorem saved_frames_of_run {load_jpeg : List Char → Option Image}
    {inp out : List Char} {s T k i : Int}
    (hs : 0 ≤ s) (hsT : s ≤ T) (hT : T ≤ INT_MAX) (hk : 1 ≤ k) (hkmax : k ≤ INT_MAX) :
    (∃ c, c ∈ process_frames_with_threads load_jpeg k inp out T s ∧ c.frame = i)
      ↔ (s ≤ i ∧ i ≤ T - 1
          ∧ (load_jpeg (frame_path inp i)).isSome = true
          ∧ (load_jpeg (frame_path inp (i - 1))).isSome = true) := by
  have hvis := fun x => mem_visited_frames (x := x) hs hsT hT hk hkmax
  unfold INT_MAX at hT
  constructor
  · rintro ⟨c, hc, rfl⟩
    obtain ⟨x, hx, hcx⟩ := mem_process_frames_with_threads.mp hc
    obtain ⟨h1, _, h3, h4⟩ := mem_process_frame hcx
    rw [hvis] at hx
    rw [h1]
    have hsub : int_sub x 1 = x - 1 := wrap32_of_range (by omega) (by omega)
    rw [hsub] at h4
    exact ⟨hx.1, hx.2, h3, h4⟩
  · rintro ⟨h1, h2, h3, h4⟩
    have hsub : int_sub i 1 = i - 1 := wrap32_of_range (by omega) (by omega)
    obtain ⟨c, hc, hf⟩ := process_frame_saves out h3 (by rw [hsub]; exact h4)
    exact ⟨c, mem_process_frames_with_threads.mpr ⟨i, (hvis i).mpr ⟨h1, h2⟩, hc⟩, hf⟩

/-- The `save_jpeg` calls of a two-node run are those of the coordinator's
run over `0 .. N/2 - 1` and of the helper's run over `N/2 .. N - 1`. -/
theorem two_node_run_eq (load_jpeg : List Char → Option Image) (k1 k2 : Int)
    (inp out : List Char) {N : Int} (hN1 : 1 ≤ N) (hN : N ≤ INT_MAX) :
    two_node_run load_jpeg k1 k2 inp out N
      = process_frames_with_threads load_jpeg k1 inp out (N / 2) 0
        ++ process_frames_with_threads load_jpeg k2 inp out N (N / 2) := by
  unfold INT_MAX at hN
  have e1 : int_div N 2 = N / 2 := by
    unfold int_div
    rw [Int.tdiv_eq_ediv (by omega) (by omega)]
    exact wrap32_of_range (by omega) (by omega)
  have e2 : int_sub N 1 = N - 1 := wrap32_of_range (by omega) (by omega)
  have e3 : int_add (N - 1) 1 = N := by
    unfold int_add
    rw [wrap32_of_range (by omega) (by omega)]
    omega
  unfold two_node_run start_server_mode
  rw [if_neg (by omega)]
  simp only [start_client_call, e1, e2, e3]

/-- A `save_jpeg` call is made by the two-node run exactly when it is made by
the single run over `0 .. N - 1`. -/
theorem mem_two_node_run (load_jpeg : List Char → Option Image)
    (inp out : List Char) {N k1 k2 k : Int} (hN1 : 1 ≤ N) (hN : N ≤ INT_MAX)
    (hk1 : 1 ≤ k1) (hk1max : k1 ≤ INT_MAX) (hk2 : 1 ≤ k2) (hk2max : k2 ≤ INT_MAX)
    (hk : 1 ≤ k) (hkmax : k ≤ INT_MAX) (c : SaveCall) :
    c ∈ two_node_run load_jpeg k1 k2 inp out N
      ↔ c ∈ process_frames_with_threads load_jpeg k inp out N 0 := by
  have hN' := hN
  unfold INT_MAX at hN'
  rw [two_node_run_eq load_jpeg k1 k2 inp out hN1 hN, List.mem_append,
    mem_process_frames_with_threads, mem_process_frames_with_threads,
    mem_process_frames_with_threads]
  constructor
  · rintro (⟨x, hx, hc⟩ | ⟨x, hx, hc⟩)
    · rw [mem_visited_frames (le_refl 0) (by omega) (by unfold INT_MAX; omega)
        hk1 hk1max] at hx
      exact ⟨x, (mem_visited_frames (le_refl 0) (by omega) hN hk hkmax).mpr
        (by omega), hc⟩
    · rw [mem_visited_frames (by omega) (by omega) hN hk2 hk2max] at hx
      exact ⟨x, (mem_visited_frames (le_refl 0) (by omega) hN hk hkmax).mpr
        (by omega), hc⟩
  · rintro ⟨x, hx, hc⟩
    rw [mem_visited_frames (le_refl 0) (by omega) hN hk hkmax] at hx
    by_cases hlt : x ≤ N / 2 - 1
    · left
      exact ⟨x, (mem_visited_frames (le_refl 0) (by omega)
        (by unfold INT_MAX; omega) hk1 hk1max).mpr ⟨hx.1, hlt⟩, hc⟩
    · right
      exact ⟨x, (mem_visited_frames (by omega) (by omega) hN hk2 hk2max).mpr
        (by omega), hc⟩

/-- C16 (distributed run equals local run).  For a total `N ≥ 1`, any
directory content and thread counts `k1, k2, k ≥ 1`, a `save_jpeg` call is made
by the two-node run (the coordinator over `0 .. N/2 - 1` with `k1` threads, the
helper over `N/2 .. N - 1` with `k2` threads) exactly when it is made by the
single run `process_frames_with_threads(.., N, 0)` with `k` threads; so the
mask indices written are the same.  The helper writes the mask of the
boundary index `N/2` whenever the frames `N/2 - 1` and `N/2` both load,
although frame `N/2 - 1` lies outside the helper's range. -/
theorem distributed_equals_local (load_jpeg : List Char → Option Image)
    (inp out : List Char) (N k1 k2 k : Int) (hN1 : 1 ≤ N) (hN : N ≤ INT_MAX)
    (hk1 : 1 ≤ k1) (hk1max : k1 ≤ INT_MAX) (hk2 : 1 ≤ k2) (hk2max : k2 ≤ INT_MAX)
    (hk : 1 ≤ k) (hkmax : k ≤ INT_MAX) :
    (∀ c, c ∈ two_node_run load_jpeg k1 k2 inp out N
        ↔ c ∈ process_frames_with_threads load_jpeg k inp out N 0)
    ∧ (∀ i, (∃ c, c ∈ two_node_run load_jpeg k1 k2 inp out N ∧ c.frame = i)
        ↔ (∃ c, c ∈ process_frames_with_threads load_jpeg k inp out N 0
              ∧ c.frame = i))
    ∧ ((load_jpeg (frame_path inp (N / 2 - 1))).isSome = true →
        (load_jpeg (frame_path inp (N / 2))).isSome = true →
        (∃ c, c ∈ process_frames_with_threads load_jpeg k2 inp out
              (start_client_call (N / 2) (N - 1)).1
              (start_client_call (N / 2) (N - 1)).2
            ∧ c.frame = N / 2 ∧ c.filename = motion_path out (N / 2))
        ∧ ¬ (N / 2 - 1) ∈ visited_frames k2 (start_client_call (N / 2) (N - 1)).1
              (start_client_call (N / 2) (N - 1)).2) := by
  have hN' := hN
  unfold INT_MAX at hN'
  have hmem := mem_two_node_run load_jpeg inp out hN1 hN hk1 hk1max hk2 hk2max hk hkmax
  refine ⟨hmem, ?_, ?_⟩
  · intro i
    constructor
    · rintro ⟨c, hc, hf⟩
      exact ⟨c, (hmem c).mp hc, hf⟩
    · rintro ⟨c, hc, hf⟩
      exact ⟨c, (hmem c).mpr hc, hf⟩
  · intro hp hc
    have hcl : ∀ x, x ∈ visited_frames k2 (start_client_call (N / 2) (N - 1)).1
        (start_client_call (N / 2) (N - 1)).2 ↔ N / 2 ≤ x ∧ x ≤ N - 1 :=
      fun x => mem_visited_frames_client (by omega) (by omega)
        (by unfold INT_MAX; omega) hk2 hk2max
    have hsub : int_sub (N / 2) 1 = N / 2 - 1 := wrap32_of_range (by omega) (by omega)
    obtain ⟨c, hcm, hf⟩ := process_frame_saves out hc (by rw [hsub]; exact hp)
    refine ⟨⟨c, mem_process_frames_with_threads.mpr
      ⟨N / 2, (hcl _).mpr (by omega), hcm⟩, hf, ?_⟩, ?_⟩
    · rw [(mem_process_frame hcm).2.1]
    · rw [hcl]
      omega

/-- Witness of C16: ten frames, three threads on the coordinator, two on the
helper, four in the single run. -/
theorem distributed_equals_local_witness :
    (∃ c, c ∈ two_node_run (load_from (frames_in [0, 1, 2, 3, 4, 5, 6, 7, 8, 9])) 3 2
          "in".toList "out".toList 10 ∧ c.frame = 5)
      ↔ (∃ c, c ∈ process_frames_with_threads
          (load_from (frames_in [0, 1, 2, 3, 4, 5, 6, 7, 8, 9])) 4
          "in".toList "out".toList 10 0 ∧ c.frame = 5) :=
  (distributed_equals_local (load_from (frames_in [0, 1, 2, 3, 4, 5, 6, 7, 8, 9]))
    "in".toList "out".toList 10 3 2 4 (by decide) (by decide) (by decide) (by decide)
    (by decide) (by decide) (by decide) (by decide)).2.1 5

/-! ## Claims on grayscale darkening, the task message and the acknowledgment -/

/-- C19 (grayscale darkening).  With `double` arithmetic as modelled by
`gray_value`, `rgb_to_grayscale` never stores 255: for every buffer of RGB
bytes every output byte is at most 254; a gray pixel `(v, v, v)` with
`1 ≤ v ≤ 255` gives `v - 1`, pure white gives 254 and black gives 0. -/
theorem grayscale_darkening (rgb : List Nat) (width height : Int)
    (hlen : rgb.length = 3 * pixel_count width height)
    (hmax : 3 * pixel_count width height ≤ 2147483647)
    (hbytes : ∀ v, v ∈ rgb → v ≤ 255) :
    (∃ gray, rgb_to_grayscale rgb width height = some gray
      ∧ ∀ y, y ∈ gray → y ≤ 254)
    ∧ (∀ v, 1 ≤ v → v ≤ 255 → gray_value v v v = v - 1)
    ∧ gray_value 255 255 255 = 254
    ∧ gray_value 0 0 0 = 0
    ∧ rgb_to_grayscale [255, 255, 255, 0, 0, 0, 7, 7, 7] 3 1 = some [254, 0, 6] := by
  refine ⟨⟨_, rgb_to_grayscale_eq rgb width height hmax (by omega), ?_⟩, ?_,
    by decide, by decide, by decide⟩
  · intro y hy
    rw [List.mem_map] at hy
    obtain ⟨p, hp, rfl⟩ := hy
    rw [List.mem_range] at hp
    exact (gray_value_bounds _ _ _
      (getD_le_of_bytes (l := rgb) (p := 3 * p) (by omega) hbytes)
      (getD_le_of_bytes (l := rgb) (p := 3 * p + 1) (by omega) hbytes)
      (getD_le_of_bytes (l := rgb) (p := 3 * p + 2) (by omega) hbytes)).1
  · intro v hv1 hv2
    obtain ⟨_, h, _⟩ := gray_value_bounds v v v hv2 hv2 hv2
    rw [h (by omega)]
    omega

/-- Witness of C19: a buffer of three gray pixels. -/
theorem grayscale_darkening_witness :
    ∃ gray, rgb_to_grayscale [255, 255, 255, 0, 0, 0, 7, 7, 7] 3 1 = some gray
      ∧ ∀ y, y ∈ gray → y ≤ 254 :=
  (grayscale_darkening [255, 255, 255, 0, 0, 0, 7, 7, 7] 3 1 (by decide) (by decide)
    (by decide)).1

/-- C20 (paths with spaces).  The task descriptor with input directory
`my frames`, output directory `out` and range `[5, 9]` has a space in its input
directory; the coordinator sends `PROCESS my frames out 5 9`, and the helper's
`sscanf` assigns `my` to the input directory and `frames` to the output
directory and leaves both frame numbers unassigned: it does not return the
descriptor that was sent. -/
theorem task_message_with_space :
    ' ' ∈ "my frames".toList
    ∧ task_message "my frames".toList "out".toList 5 9
        = "PROCESS my frames out 5 9".toList
    ∧ sscanf_task (task_message "my frames".toList "out".toList 5 9)
        = some ⟨some "my".toList, some "frames".toList, none, none⟩
    ∧ sscanf_task (task_message "my frames".toList "out".toList 5 9)
        ≠ some ⟨some "my frames".toList, some "out".toList, some 5, some 9⟩
    ∧ (∃ (input_path output_path : List Char) (start_frame end_frame : Int),
        (' ' ∈ input_path ∨ ' ' ∈ output_path)
        ∧ sscanf_task (task_message input_path output_path start_frame end_frame)
          ≠ some ⟨some input_path, some output_path, some start_frame,
              some end_frame⟩) := by
  refine ⟨by decide, by decide, by decide, by decide,
    ⟨"my frames".toList, "out".toList, 5, 9, Or.inl (by decide), by decide⟩⟩

/-- The bytes in front of the first NUL of `l` are `K` exactly when `l` is `K`
or `K` followed by a NUL and anything. -/
theorem c_string_eq_iff (K : List Char) (hK : ∀ c, c ∈ K → c ≠ Char.ofNat 0) :
    ∀ l : List Char, c_string l = K
      ↔ (l = K ∨ ∃ junk, l = K ++ Char.ofNat 0 :: junk) := by
  induction K with
  | nil =>
    intro l
    cases l with
    | nil => simp [c_string]
    | cons a t =>
      unfold c_string
      by_cases ha : a = Char.ofNat 0
      · subst ha
        simp
      · rw [List.takeWhile_cons_of_pos (by simpa using ha)]
        simp [ha]
  | cons b K ih =>
    intro l
    have hb : b ≠ Char.ofNat 0 := hK b (List.mem_cons_self b K)
    have ih2 := ih (fun c hc => hK c (List.mem_cons_of_mem b hc))
    cases l with
    | nil => simp [c_string]
    | cons a t =>
      by_cases ha : a = Char.ofNat 0
      · subst ha
        have : c_string (Char.ofNat 0 :: t) = [] := by
          unfold c_string
          rw [List.takeWhile_cons_of_neg (by simp)]
        rw [this]
        constructor
        · intro h
          exact absurd h (by simp)
        · rintro (h | ⟨junk, h⟩)
          · exact absurd (List.cons.inj h).1.symm hb
          · exact absurd (List.cons.inj h).1.symm hb
      · have : c_string (a :: t) = a :: c_string t := by
          unfold c_string
          rw [List.takeWhile_cons_of_pos (by simpa using ha)]
        rw [this]
        constructor
        · intro h
          obtain ⟨h1, h2⟩ := List.cons.inj h
          subst h1
          rcases (ih2 t).mp h2 with h3 | ⟨junk, h3⟩
          · left
            rw [h3]
          · right
            exact ⟨junk, by rw [h3]; rfl⟩
        · rintro (h | ⟨junk, h⟩)
          · obtain ⟨h1, h2⟩ := List.cons.inj h
            rw [h1, (ih2 t).mpr (Or.inl h2)]
          · obtain ⟨h1, h2⟩ := List.cons.inj h
            rw [h1, (ih2 t).mpr (Or.inr ⟨junk, h2⟩)]

/-- Whether the first `BUFFER_SIZE` bytes are `COMPLETED`, alone or followed by
a NUL, can be read off the bytes themselves. -/
theorem read_buffer_completed (bytes : List Char) :
    (read_buffer bytes = "COMPLETED".toList
        ∨ ∃ junk, read_buffer bytes = "COMPLETED".toList ++ Char.ofNat 0 :: junk)
      ↔ (bytes = "COMPLETED".toList
        ∨ ∃ junk, bytes = "COMPLETED".toList ++ Char.ofNat 0 :: junk) := by
  unfold read_buffer BUFFER_SIZE
  have hk : "COMPLETED".toList.length = 9 := rfl
  constructor
  · rintro (h | ⟨junk, h⟩)
    · left
      have hl := congrArg List.length h
      rw [List.length_take, hk] at hl
      have : bytes.length ≤ 1024 := by omega
      rw [List.take_of_length_le this] at h
      exact h
    · right
      refine ⟨junk ++ bytes.drop 1024, ?_⟩
      have := List.take_append_drop 1024 bytes
      rw [h] at this
      rw [List.append_assoc, List.cons_append] at this
      exact this.symm
  · rintro (h | ⟨junk, h⟩)
    · left
      rw [h]
      rfl
    · right
      refine ⟨junk.take 1014, ?_⟩
      rw [h, List.take_append_eq_append_take, hk]
      have e1 : List.take 1024 "COMPLETED".toList = "COMPLETED".toList := rfl
      rw [e1]
      rfl

/-- C11 (acknowledgment handling).  The helper's completion message is the 9
bytes `COMPLETED`.  The coordinator takes the success branch if and only if
`read` delivers bytes that are `COMPLETED` up to their first NUL: the nine
bytes alone (the cleared buffer supplies the NUL) or the nine bytes followed by
a NUL and anything; every other non-empty content takes the
unexpected-message branch; a failed or empty `read` takes the error branch; in
every case it closes the client socket and the listening socket and returns.
The helper's message as sent is classified as success, and so is
`COMPLETED\0junk`; `COMPLETEDX`, `COMPLETE`, `\0COMPLETED` and ` COMPLETED`
are classified as unexpected. -/
theorem acknowledgment_handling (received : Option (List Char)) :
    completion_message = "COMPLETED".toList
    ∧ completion_message.length = 9
    ∧ ((start_server_ack received).1 = AckOutcome.success
        ↔ ∃ bytes, received = some bytes
            ∧ (bytes = "COMPLETED".toList
              ∨ ∃ junk, bytes = "COMPLETED".toList ++ Char.ofNat 0 :: junk))
    ∧ ((start_server_ack received).1 = AckOutcome.unexpected
        ↔ ∃ bytes, received = some bytes ∧ bytes ≠ []
            ∧ ¬ (bytes = "COMPLETED".toList
              ∨ ∃ junk, bytes = "COMPLETED".toList ++ Char.ofNat 0 :: junk))
    ∧ ((start_server_ack received).1 = AckOutcome.read_failed
        ↔ received = none ∨ received = some [])
    ∧ (start_server_ack received).2 = [Socket.client_socket, Socket.server_fd]
    ∧ (start_server_ack (some completion_message)).1 = AckOutcome.success
    ∧ (start_server_ack (some ("COMPLETED".toList ++ Char.ofNat 0 :: "junk".toList))).1
        = AckOutcome.success
    ∧ (start_server_ack (some "COMPLETEDX".toList)).1 = AckOutcome.unexpected
    ∧ (start_server_ack (some "COMPLETE".toList)).1 = AckOutcome.unexpected
    ∧ (start_server_ack (some (Char.ofNat 0 :: "COMPLETED".toList))).1
        = AckOutcome.unexpected
    ∧ (start_server_ack (some " COMPLETED".toList)).1 = AckOutcome.unexpected := by
  have key : ∀ bytes : List Char,
      c_string (read_buffer bytes) = "COMPLETED".toList
        ↔ (bytes = "COMPLETED".toList
          ∨ ∃ junk, bytes = "COMPLETED".toList ++ Char.ofNat 0 :: junk) :=
    fun bytes =>
      (c_string_eq_iff "COMPLETED".toList (by decide) (read_buffer bytes)).trans
        (read_buffer_completed bytes)
  have hK : "COMPLETED".toList ≠ [] := by decide
  refine ⟨by decide, by decide, ?_, ?_, ?_, ?_, by decide, by decide, by decide,
    by decide, by decide, by decide⟩
  all_goals
    unfold start_server_ack
    generalize "COMPLETED".toList = K at key hK
    obtain ⟨P, hP⟩ : ∃ P : List Char → Prop,
        ∀ b, P b = (b = K ∨ ∃ junk, b = K ++ Char.ofNat 0 :: junk) :=
      ⟨_, fun _ => rfl⟩
    simp only [← hP] at key ⊢
    cases received with
    | none => simp
    | some bytes =>
      have hb : read_buffer bytes = [] ↔ bytes = [] := by
        unfold read_buffer BUFFER_SIZE
        cases bytes <;> simp
      by_cases h0 : 0 < (read_buffer bytes).length
      · have hne : read_buffer bytes ≠ [] := List.ne_nil_of_length_pos h0
        have hne2 : bytes ≠ [] := fun h => hne (hb.mpr h)
        by_cases h1 : c_string (read_buffer bytes) = K
        · have h2 : P bytes := (key bytes).mp h1
          simp [h0, h1, hne2, h2]
        · have h2 : ¬ P bytes := fun h => h1 ((key bytes).mpr h)
          simp [h0, h1, hne2, h2]
      · have he : read_buffer bytes = [] := by
          cases hr : read_buffer bytes with
          | nil => rfl
          | cons a l => rw [hr] at h0; simp at h0
        have he2 : bytes = [] := hb.mp he
        subst he2
        have h3 : ¬ P [] := by
          rw [hP]
          rintro (h | ⟨junk, h⟩)
          · exact hK h.symm
          · simp at h
        simp [read_buffer, h3]

/-! ## Facts about the frame-name pattern -/

theorem regex_literal_rmatch (s x : List Char) :
    (regex_literal s).rmatch x = true ↔ x = s := by
  induction s generalizing x with
  | nil =>
    show (RegularExpression.epsilon : RegularExpression Char).rmatch x = true ↔ x = []
    exact RegularExpression.one_rmatch_iff x
  | cons c s ih =>
    show (RegularExpression.comp (RegularExpression.char c) (regex_literal s)).rmatch x
      = true ↔ x = c :: s
    rw [RegularExpression.comp_def, RegularExpression.mul_rmatch_iff]
    constructor
    · rintro ⟨t, u, rfl, ht, hu⟩
      rw [(RegularExpression.char_rmatch_iff c t).mp ht, (ih u).mp hu]
      rfl
    · rintro rfl
      exact ⟨[c], s, rfl, (RegularExpression.char_rmatch_iff c [c]).mpr rfl,
        (ih s).mpr rfl⟩

theorem isdigit_iff (c : Char) :
    isdigit c = true ↔ c = '0' ∨ c = '1' ∨ c = '2' ∨ c = '3' ∨ c = '4' ∨ c = '5'
      ∨ c = '6' ∨ c = '7' ∨ c = '8' ∨ c = '9' := by
  constructor
  · intro h
    unfold isdigit at h
    simp only [Bool.and_eq_true, decide_eq_true_eq] at h
    have hc : c = Char.ofNat c.toNat := (Char.ofNat_toNat c).symm
    have hn : c.toNat = 48 ∨ c.toNat = 49 ∨ c.toNat = 50 ∨ c.toNat = 51
        ∨ c.toNat = 52 ∨ c.toNat = 53 ∨ c.toNat = 54 ∨ c.toNat = 55
        ∨ c.toNat = 56 ∨ c.toNat = 57 := by omega
    rcases hn with h | h | h | h | h | h | h | h | h | h <;> rw [h] at hc <;>
      simp [hc]
  · rintro (h | h | h | h | h | h | h | h | h | h) <;> rw [h] <;> decide

theorem regex_digit_rmatch (x : List Char) :
    regex_digit.rmatch x = true ↔ ∃ c, x = [c] ∧ isdigit c = true := by
  unfold regex_digit
  simp only [RegularExpression.add_rmatch_iff, RegularExpression.char_rmatch_iff]
  constructor
  · intro h
    rcases h with ((((((((h | h) | h) | h) | h) | h) | h) | h) | h) | h <;>
      exact ⟨_, h, by decide⟩
  · rintro ⟨c, rfl, hc⟩
    rcases (isdigit_iff c).mp hc with h | h | h | h | h | h | h | h | h | h <;>
      simp [h]

theorem regex_digits_rmatch (x : List Char) :
    (RegularExpression.comp regex_digit (RegularExpression.star regex_digit)).rmatch x
        = true
      ↔ x ≠ [] ∧ ∀ c, c ∈ x → isdigit c = true := by
  rw [RegularExpression.comp_def, RegularExpression.mul_rmatch_iff]
  constructor
  · rintro ⟨t, u, rfl, ht, hu⟩
    obtain ⟨c, rfl, hc⟩ := (regex_digit_rmatch t).mp ht
    obtain ⟨S, rfl, hS⟩ := (RegularExpression.star_rmatch_iff regex_digit u).mp hu
    refine ⟨by simp, ?_⟩
    intro d hd
    rcases List.mem_append.mp hd with hd | hd
    · rw [List.mem_singleton.mp hd]
      exact hc
    · obtain ⟨w, hw, hdw⟩ := List.mem_flatten.mp hd
      obtain ⟨e, rfl, he⟩ := (regex_digit_rmatch w).mp (hS w hw).2
      rw [List.mem_singleton.mp hdw]
      exact he
  · rintro ⟨hne, hall⟩
    obtain ⟨a, l, rfl⟩ := List.exists_cons_of_ne_nil hne
    refine ⟨[a], l, rfl, (regex_digit_rmatch [a]).mpr
      ⟨a, rfl, hall a (List.mem_cons_self a l)⟩, ?_⟩
    rw [RegularExpression.star_rmatch_iff]
    refine ⟨l.map (fun c => [c]), ?_, ?_⟩
    · clear hall hne
      induction l with
      | nil => rfl
      | cons b m ih => simpa [List.flatten] using ih
    · intro t ht
      obtain ⟨c, hc, rfl⟩ := List.mem_map.mp ht
      exact ⟨by simp, (regex_digit_rmatch [c]).mpr
        ⟨c, rfl, hall c (List.mem_cons_of_mem a hc)⟩⟩

/-- The pattern of `count_frames_in_directory` accepts exactly the names that
are `frame_`, one or more decimal digits, `.jpg`. -/
theorem regexec_frame_iff (name : List Char) :
    regexec_frame name = true ↔ is_frame_name name := by
  unfold regexec_frame frame_regex is_frame_name
  rw [RegularExpression.comp_def, RegularExpression.mul_rmatch_iff]
  constructor
  · rintro ⟨t, u, rfl, ht, hu⟩
    rw [RegularExpression.comp_def, RegularExpression.mul_rmatch_iff] at hu
    obtain ⟨v, w, rfl, hv, hw⟩ := hu
    rw [regex_literal_rmatch] at ht hw
    obtain ⟨hne, hall⟩ := (regex_digits_rmatch v).mp hv
    exact ⟨v, hne, hall, by rw [ht, hw, List.append_assoc]⟩
  · rintro ⟨ds, hne, hall, rfl⟩
    refine ⟨"frame_".toList, ds ++ ".jpg".toList, by rw [List.append_assoc],
      (regex_literal_rmatch _ _).mpr rfl, ?_⟩
    rw [RegularExpression.comp_def, RegularExpression.mul_rmatch_iff]
    exact ⟨ds, ".jpg".toList, rfl, (regex_digits_rmatch ds).mpr ⟨hne, hall⟩,
      (regex_literal_rmatch _ _).mpr rfl⟩
/-- The counting loop of `count_frames_in_directory` adds one per matching
entry as long as the counter stays in the `int` range. -/
theorem count_loop (names : List (List Char)) : ∀ (acc : Nat),
    acc + (names.filter regexec_frame).length ≤ 2147483647 →
    names.foldl
        (fun frame_count d_name =>
          if regexec_frame d_name then int_add frame_count 1 else frame_count)
        (acc : Int)
      = ((acc + (names.filter regexec_frame).length : Nat) : Int) := by
  induction names with
  | nil => intro acc _; simp
  | cons n l ih =>
    intro acc h
    rw [List.foldl_cons]
    by_cases hm : regexec_frame n = true
    · rw [List.filter_cons_of_pos hm, List.length_cons] at h ⊢
      have e : int_add (acc : Int) 1 = ((acc + 1 : Nat) : Int) := by
        unfold int_add
        rw [wrap32_of_range (by omega) (by omega)]
        push_cast
        rfl
      rw [if_pos hm, e, ih (acc + 1) (by omega),
        show acc + 1 + (List.filter regexec_frame l).length
          = acc + ((List.filter regexec_frame l).length + 1) by omega]
    · rw [List.filter_cons_of_neg hm] at h ⊢
      rw [if_neg hm, ih acc h]

/-- C14 (`countFrames`).  For a directory that can be opened,
`count_frames_in_directory` returns the number of entries accepted by its
pattern (a count in the `int` range), and the pattern accepts a name exactly
when it is `frame_`, followed by one or more decimal digits, followed by
`.jpg`, with nothing before or after; `motion_frame_3.jpg`, `frame_.jpg`,
`frame_-1.jpg` and `frame_3.jpeg` are not counted.  For a directory that
cannot be opened it returns `-1`. -/
theorem count_frames_spec (names : List (List Char))
    (hcount : (names.filter regexec_frame).length ≤ 2147483647) :
    count_frames_in_directory (some names)
        = ((names.filter regexec_frame).length : Int)
    ∧ (∀ name, name ∈ names.filter regexec_frame ↔ name ∈ names ∧ is_frame_name name)
    ∧ (∀ name, regexec_frame name = true ↔ is_frame_name name)
    ∧ ¬ is_frame_name "motion_frame_3.jpg".toList
    ∧ ¬ is_frame_name "frame_.jpg".toList
    ∧ ¬ is_frame_name "frame_-1.jpg".toList
    ∧ ¬ is_frame_name "frame_3.jpeg".toList
    ∧ is_frame_name "frame_3.jpg".toList
    ∧ count_frames_in_directory
        (some [".".toList, "..".toList, "frame_0.jpg".toList,
          "motion_frame_3.jpg".toList, "frame_.jpg".toList, "frame_-1.jpg".toList,
          "frame_3.jpeg".toList, "frame_12.jpg".toList]) = 2
    ∧ count_frames_in_directory none = -1 := by
  have hno : ∀ name, regexec_frame name = false → ¬ is_frame_name name := by
    intro name h hn
    rw [(regexec_frame_iff name).mpr hn] at h
    exact Bool.noConfusion h
  refine ⟨?_, ?_, regexec_frame_iff, hno _ (by decide), hno _ (by decide),
    hno _ (by decide), hno _ (by decide), (regexec_frame_iff _).mp (by decide),
    by decide, rfl⟩
  · have := count_loop names 0 (by omega)
    simp only [Nat.zero_add] at this
    exact this
  · intro name
    rw [List.mem_filter, regexec_frame_iff]

/-- Witness of C14: a directory with two frames among its eight entries. -/
theorem count_frames_spec_witness :
    count_frames_in_directory
        (some [".".toList, "..".toList, "frame_0.jpg".toList,
          "motion_frame_3.jpg".toList, "frame_.jpg".toList, "frame_-1.jpg".toList,
          "frame_3.jpeg".toList, "frame_12.jpg".toList])
      = (([".".toList, "..".toList, "frame_0.jpg".toList,
          "motion_frame_3.jpg".toList, "frame_.jpg".toList, "frame_-1.jpg".toList,
          "frame_3.jpeg".toList, "frame_12.jpg".toList].filter regexec_frame).length
          : Int) :=
  (count_frames_spec [".".toList, "..".toList, "frame_0.jpg".toList,
    "motion_frame_3.jpg".toList, "frame_.jpg".toList, "frame_-1.jpg".toList,
    "frame_3.jpeg".toList, "frame_12.jpg".toList] (by decide)).1

/-! ## Facts about frame names and paths -/

theorem format_d_injective {x y : Int} (h : format_d x = format_d y) : x = y := by
  obtain ⟨dx, hnx, hdx, hvx, _, ex⟩ := format_d_spec x
  obtain ⟨dy, hny, hdy, hvy, _, ey⟩ := format_d_spec y
  rw [ex, ey] at h
  have hminus : ∀ ds : List Char, ds ≠ [] → (∀ c, c ∈ ds → isdigit c = true) →
      ∀ l, ds ≠ '-' :: l := by
    intro ds hne hd l e
    rw [e] at hd
    exact absurd (hd '-' (List.mem_cons_self _ _)) (by decide)
  by_cases hx : x < 0 <;> by_cases hy : y < 0
  · rw [if_pos hx, if_pos hy] at h
    have e : dx = dy := (List.cons.inj h).2
    rw [e, hvy] at hvx
    rw [abs_of_neg hx, abs_of_neg hy] at hvx
    omega
  · rw [if_pos hx, if_neg hy] at h
    exact absurd h.symm (hminus dy hny hdy dx)
  · rw [if_neg hx, if_pos hy] at h
    exact absurd h (hminus dx hnx hdx dy)
  · rw [if_neg hx, if_neg hy] at h
    rw [h, hvy] at hvx
    rw [abs_of_nonneg (by omega), abs_of_nonneg (by omega)] at hvx
    omega

/-- The output of `%d` holds digits and at most a sign: no dot, no underscore,
no slash. -/
theorem format_d_chars {x : Int} {c : Char} (h : c ∈ format_d x) :
    c ≠ '.' ∧ c ≠ '_' ∧ c ≠ '/' := by
  obtain ⟨ds, _, hd, _, _, e⟩ := format_d_spec x
  rw [e] at h
  have hdig : ∀ d, isdigit d = true → d ≠ '.' ∧ d ≠ '_' ∧ d ≠ '/' := by
    intro d hd
    refine ⟨?_, ?_, ?_⟩ <;> rintro rfl <;> exact absurd hd (by decide)
  split_ifs at h
  · rcases List.mem_cons.mp h with h | h
    · rw [h]
      decide
    · exact hdig c (hd c h)
  · exact hdig c (hd c h)

/-- For a non-negative index `%d` prints digits only, so the name
`frame_<n>.jpg` is accepted by the pattern of `count_frames_in_directory`. -/
theorem regexec_frame_name (n : Nat) :
    regexec_frame ("frame_".toList ++ format_d (Int.ofNat n) ++ ".jpg".toList) = true := by
  obtain ⟨ds, hne, hd, _, _, e⟩ := format_d_spec (Int.ofNat n)
  rw [if_neg (by simp)] at e
  rw [regexec_frame_iff, e]
  exact ⟨ds, hne, hd, rfl⟩

theorem load_from_isSome {files : List (List Char × Image)} {path : List Char} :
    (load_from files path).isSome = true ↔ ∃ e, e ∈ files ∧ e.1 = path := by
  unfold load_from
  induction files with
  | nil =>
    constructor
    · intro h
      exact Bool.noConfusion h
    · rintro ⟨e, he, _⟩
      exact absurd he (List.not_mem_nil e)
  | cons f l ih =>
    obtain ⟨p, img⟩ := f
    by_cases hp : path = p
    · subst hp
      rw [List.lookup_cons, beq_self_eq_true]
      constructor
      · intro _
        exact ⟨(path, img), List.mem_cons_self _ _, rfl⟩
      · intro _
        rfl
    · have hne : (path == p) = false := beq_eq_false_iff_ne.mpr hp
      rw [List.lookup_cons, hne]
      show (List.lookup path l).isSome = true ↔ _
      rw [ih]
      constructor
      · rintro ⟨e, he, h⟩
        exact ⟨e, List.mem_cons_of_mem _ he, h⟩
      · rintro ⟨e, he, h⟩
        rcases List.mem_cons.mp he with he | he
        · rw [he] at h
          exact absurd h.symm hp
        · exact ⟨e, he, h⟩

/-- The path that the worker builds for frame `i` is the path of the entry
`frame_<n>.jpg` of the input directory only for `i = n`, also when the
256-byte buffer cuts the path. -/
theorem frame_path_eq_entry {inp : List Char} {i : Int} {n : Nat}
    (h : inp ++ "/".toList ++ ("frame_".toList ++ format_d (Int.ofNat n) ++ ".jpg".toList)
      = frame_path inp i) : i = Int.ofNat n := by
  unfold frame_path snprintf at h
  have ek : inp ++ "/".toList ++ ("frame_".toList ++ format_d (Int.ofNat n) ++ ".jpg".toList)
      = (inp ++ "/frame_".toList) ++ (format_d (Int.ofNat n) ++ ".jpg".toList) := by
    simp [String.toList]
  have ef : inp ++ "/frame_".toList ++ format_d i ++ ".jpg".toList
      = (inp ++ "/frame_".toList) ++ (format_d i ++ ".jpg".toList) := by
    simp
  rw [ek, ef] at h
  by_cases hfit : ((inp ++ "/frame_".toList) ++ (format_d i ++ ".jpg".toList)).length ≤ 255
  · rw [List.take_of_length_le hfit] at h
    have h2 := List.append_cancel_left h
    have h3 := List.append_cancel_right h2
    exact (format_d_injective h3).symm
  · exfalso
    have hlen := congrArg List.length h
    have a1 : "/frame_".toList.length = 7 := rfl
    have a2 : ".jpg".toList.length = 4 := rfl
    simp only [List.length_take, List.length_append, a1, a2] at hlen hfit
    have hpos : inp.length + 7 + (format_d (Int.ofNat n)).length < 255 := by omega
    have hget := congrArg
      (fun (s : List Char) => s[inp.length + 7 + (format_d (Int.ofNat n)).length]?) h
    simp only [List.getElem?_take, hpos, if_true] at hget
    have e1 : ((inp ++ "/frame_".toList) ++ (format_d (Int.ofNat n) ++ ".jpg".toList))[
        inp.length + 7 + (format_d (Int.ofNat n)).length]? = some '.' := by
      rw [List.getElem?_append_right (by simp [a1]),
        List.getElem?_append_right (by simp [a1])]
      simp [a1, String.toList]
    have hlt : (format_d (Int.ofNat n)).length < (format_d i).length := by omega
    have e2 : ((inp ++ "/frame_".toList) ++ (format_d i ++ ".jpg".toList))[
        inp.length + 7 + (format_d (Int.ofNat n)).length]?
        = (format_d i)[(format_d (Int.ofNat n)).length]? := by
      rw [List.getElem?_append_right (by simp [a1])]
      simp only [List.length_append, a1, Nat.add_sub_cancel_left]
      rw [List.getElem?_append_left hlt]
    rw [e1, e2] at hget
    have hmem : '.' ∈ format_d i := List.getElem?_mem hget.symm
    exact (format_d_chars hmem).1 rfl

/-! ## Claims on the frame count -/

/-- A directory holding exactly `frame_0.jpg .. frame_(c-1).jpg` has the frame
count `c`. -/
theorem count_frame_entries (images : Nat → Image) (c : Nat)
    (hc : c ≤ 2147483647) :
    count_frames_in_directory (some ((frame_entries images c).map Prod.fst))
      = (c : Int) := by
  have hall : ((frame_entries images c).map Prod.fst).filter regexec_frame
      = (frame_entries images c).map Prod.fst := by
    rw [List.filter_eq_self]
    intro name hn
    unfold frame_entries at hn
    simp only [List.map_map, List.mem_map, List.mem_range, Function.comp] at hn
    obtain ⟨n, _, rfl⟩ := hn
    exact regexec_frame_name n
  have hlen : ((frame_entries images c).map Prod.fst).length = c := by
    simp [frame_entries]
  have := count_loop ((frame_entries images c).map Prod.fst) 0
    (by rw [hall, hlen]; omega)
  rw [hall, hlen] at this
  simp only [Nat.zero_add] at this
  exact this

/-- In a directory holding exactly `frame_0.jpg .. frame_(c-1).jpg` the path
that the worker builds for frame `i` loads only for `0 ≤ i < c`. -/
theorem load_frame_entries {images : Nat → Image} {c : Nat} {inp : List Char}
    {i : Int}
    (h : (load_dir inp (frame_entries images c) (frame_path inp i)).isSome = true) :
    0 ≤ i ∧ i < (c : Int) := by
  unfold load_dir at h
  obtain ⟨e, he, hp⟩ := load_from_isSome.mp h
  unfold frame_entries at he
  simp only [List.map_map, List.mem_map, List.mem_range, Function.comp] at he
  obtain ⟨n, hn, rfl⟩ := he
  have := frame_path_eq_entry hp
  have e : (Int.ofNat n) = (n : Int) := rfl
  omega

/-- C18 (frame count versus frame indices).  Menu option 2 and server mode
process the frames `0 .. c - 1`, `c` being the number of entry names accepted
by the pattern (a count in the `int` range), not the largest index plus one.
In the directory holding exactly `frame_0`, `frame_1`, `frame_2`, `frame_4` and
`frame_5` the count is 5, the frames 5 and 4 both load, and neither way of
running ever makes a `save_jpeg` call for frame 5 (with four threads the masks
written are exactly those of the frames 1 and 2).  In a directory holding
exactly `frame_0 .. frame_(c-1)` the count is `c` and every index whose frame
and predecessor both load gets its mask in both ways of running. -/
theorem frame_count_versus_indices (images : Nat → Image) (c : Nat)
    (inp out : List Char) (k k1 k2 : Int)
    (hc : c ≤ 2147483647) (hk : 1 ≤ k) (hkmax : k ≤ INT_MAX)
    (hk1 : 1 ≤ k1) (hk1max : k1 ≤ INT_MAX) (hk2 : 1 ≤ k2) (hk2max : k2 ≤ INT_MAX) :
    (∀ names : List (List Char),
        (names.filter regexec_frame).length ≤ 2147483647 →
        (∀ x, x ∈ visited_frames k (count_frames_in_directory (some names)) 0
          ↔ 0 ≤ x ∧ x ≤ ((names.filter regexec_frame).length : Int) - 1)
        ∧ (∀ (load_jpeg : List Char → Option Image) (call : SaveCall),
            1 ≤ (names.filter regexec_frame).length →
            (call ∈ two_node_run load_jpeg k1 k2 inp out
                (count_frames_in_directory (some names))
              ↔ call ∈ motion_detection_option load_jpeg k (some names) inp out)))
    ∧ (count_frames_in_directory (some (gap_entries.map Prod.fst)) = 5
        ∧ (load_dir "in".toList gap_entries (frame_path "in".toList 5)).isSome = true
        ∧ (load_dir "in".toList gap_entries (frame_path "in".toList (5 - 1))).isSome
            = true
        ∧ (¬ ∃ call, call ∈ motion_detection_option (load_dir "in".toList gap_entries)
              k (some (gap_entries.map Prod.fst)) "in".toList "out".toList
            ∧ call.frame = 5)
        ∧ (¬ ∃ call, call ∈ two_node_run (load_dir "in".toList gap_entries) k1 k2
              "in".toList "out".toList
              (count_frames_in_directory (some (gap_entries.map Prod.fst)))
            ∧ call.frame = 5)
        ∧ (motion_detection_option (load_dir "in".toList gap_entries) 4
              (some (gap_entries.map Prod.fst)) "in".toList "out".toList).map
              (fun call => call.filename)
            = ["out/motion_frame_1.jpg".toList, "out/motion_frame_2.jpg".toList]
        ∧ (two_node_run (load_dir "in".toList gap_entries) 4 4 "in".toList
              "out".toList
              (count_frames_in_directory (some (gap_entries.map Prod.fst)))).map
              (fun call => call.filename)
            = ["out/motion_frame_1.jpg".toList, "out/motion_frame_2.jpg".toList])
    ∧ (count_frames_in_directory (some ((frame_entries images c).map Prod.fst))
          = (c : Int)
        ∧ ∀ i : Int,
            (load_dir inp (frame_entries images c) (frame_path inp i)).isSome = true →
            (load_dir inp (frame_entries images c) (frame_path inp (i - 1))).isSome
              = true →
            (∃ call, call ∈ motion_detection_option
                (load_dir inp (frame_entries images c)) k
                (some ((frame_entries images c).map Prod.fst)) inp out
              ∧ call.frame = i)
            ∧ (∃ call, call ∈ two_node_run (load_dir inp (frame_entries images c))
                k1 k2 inp out
                (count_frames_in_directory
                  (some ((frame_entries images c).map Prod.fst)))
              ∧ call.frame = i)) := by
  have hcount : ∀ names : List (List Char),
      (names.filter regexec_frame).length ≤ 2147483647 →
      count_frames_in_directory (some names)
        = ((names.filter regexec_frame).length : Int) := by
    intro names h
    have := count_loop names 0 (by omega)
    simp only [Nat.zero_add] at this
    exact this
  have hgap : count_frames_in_directory (some (gap_entries.map Prod.fst)) = 5 := by
    decide
  refine ⟨?_, ⟨hgap, by decide, by decide, ?_, ?_, by decide, by decide⟩, ?_⟩
  · intro names hn
    rw [hcount names hn]
    refine ⟨fun x => mem_visited_frames (le_refl 0) (by omega)
      (by unfold INT_MAX; omega) hk hkmax, ?_⟩
    intro load_jpeg call h1
    unfold motion_detection_option
    rw [hcount names hn]
    exact mem_two_node_run load_jpeg inp out (by omega) (by unfold INT_MAX; omega)
      hk1 hk1max hk2 hk2max hk hkmax call
  · rintro ⟨call, hcall, hf⟩
    unfold motion_detection_option at hcall
    rw [hgap] at hcall
    have := (saved_frames_of_run (le_refl 0) (by decide) (by decide) hk hkmax).mp
      ⟨call, hcall, hf⟩
    omega
  · rintro ⟨call, hcall, hf⟩
    rw [hgap, mem_two_node_run _ _ _ (by decide) (by decide) hk1 hk1max hk2 hk2max
      hk hkmax] at hcall
    have := (saved_frames_of_run (le_refl 0) (by decide) (by decide) hk hkmax).mp
      ⟨call, hcall, hf⟩
    omega
  · have hcc := count_frame_entries images c hc
    refine ⟨hcc, ?_⟩
    intro i hi hp
    have h1 := load_frame_entries hi
    have h2 := load_frame_entries hp
    have hrun : ∃ call, call ∈ process_frames_with_threads
        (load_dir inp (frame_entries images c)) k inp out (c : Int) 0
        ∧ call.frame = i :=
      (saved_frames_of_run (le_refl 0) (by omega) (by unfold INT_MAX; omega)
        hk hkmax).mpr ⟨by omega, by omega, hi, hp⟩
    refine ⟨?_, ?_⟩
    · unfold motion_detection_option
      rw [hcc]
      exact hrun
    · obtain ⟨call, hcall, hf⟩ := hrun
      rw [hcc]
      exact ⟨call, (mem_two_node_run _ inp out (by omega)
        (by unfold INT_MAX; omega) hk1 hk1max hk2 hk2max hk hkmax call).mpr hcall, hf⟩

/-- Witness of C18: the directory holding `frame_0.jpg .. frame_2.jpg`, four
threads everywhere. -/
theorem frame_count_versus_indices_witness :
    count_frames_in_directory
        (some ((frame_entries (fun n => gray_pixel (25 * n)) 3).map Prod.fst))
      = ((3 : Nat) : Int) :=
  (frame_count_versus_indices (fun n => gray_pixel (25 * n)) 3 "in".toList
    "out".toList 4 4 4 (by decide) (by decide) (by decide) (by decide) (by decide)
    (by decide) (by decide)).2.2.1

/-! ## Claims on the write footprint of a worker -/

set_option maxRecDepth 100000 in
/-- C15 (worker write footprint), the code at failing inputs.  The path
arrays of `process_frame_batch` hold 256 bytes, less than the `MAX_PATH` of 512
bytes that the callers allow for a directory name.

First input: the output directory has a name of 250 bytes, the directory `in`
holds the frames 0, 1 and 2, and two threads process the range `[1, 2]`.  The
two workers get the sub-ranges `[1, 1]` and `[2, 2]` and both call `save_jpeg`
with one and the same file name, the first 255 bytes of the intended name: the
directory name followed by `/moti`.

Second input: the input directory has a name of 243 bytes, so that the path of
`frame_1.jpg` fills the array exactly, and the output directory is named
`<input>/frame_1.jpgd`.  The worker for the range `[1, 1]` calls `save_jpeg`
with the path of the input frame `<input>/frame_1.jpg`. -/
theorem worker_writes_cut_path :
    (List.replicate 250 'o').length < MAX_PATH
    ∧ (thread_ids 2).map (fun i =>
          ((thread_data "in".toList (List.replicate 250 'o') 3 1 2 i).start_frame,
            (thread_data "in".toList (List.replicate 250 'o') 3 1 2 i).end_frame))
        = [(1, 1), (2, 2)]
    ∧ (process_frames_with_threads (load_from (frames_in [0, 1, 2])) 2 "in".toList
          (List.replicate 250 'o') 3 1).map (fun c => (c.frame, c.filename))
        = [(1, List.replicate 250 'o' ++ "/moti".toList),
            (2, List.replicate 250 'o' ++ "/moti".toList)]
    ∧ List.replicate 250 'o' ++ "/moti".toList
        ≠ List.replicate 250 'o' ++ "/motion_frame_1.jpg".toList
    ∧ (List.replicate 243 'i' ++ "/frame_1.jpgd".toList).length < MAX_PATH
    ∧ frame_path (List.replicate 243 'i') 1
        = List.replicate 243 'i' ++ "/frame_1.jpg".toList
    ∧ (process_frame_batch
          (load_from [(List.replicate 243 'i' ++ "/frame_0.jpg".toList, gray_pixel 0),
            (List.replicate 243 'i' ++ "/frame_1.jpg".toList, gray_pixel 25)])
          { start_frame := 1, end_frame := 1, input_path := List.replicate 243 'i',
            output_path := List.replicate 243 'i' ++ "/frame_1.jpgd".toList }).map
          (fun c => c.filename)
        = [List.replicate 243 'i' ++ "/frame_1.jpg".toList] := by
  decide
/-- No mask name `<output>/motion_frame_<i>.jpg` is a frame name
`<input>/frame_<n>.jpg`, whatever the two directories are. -/
theorem motion_name_ne_frame_name (out inp : List Char) (i n : Int) :
    out ++ "/motion_frame_".toList ++ format_d i ++ ".jpg".toList
      ≠ inp ++ "/frame_".toList ++ format_d n ++ ".jpg".toList := by
  intro h
  have h1 := List.append_cancel_right h
  have h2 := congrArg List.reverse h1
  have el : (out ++ "/motion_frame_".toList ++ format_d i).reverse
      = (format_d i).reverse ++ ('_' :: ("emarf_noitom/".toList ++ out.reverse)) := by
    simp [String.toList]
  have er : (inp ++ "/frame_".toList ++ format_d n).reverse
      = (format_d n).reverse ++ ('_' :: ("emarf/".toList ++ inp.reverse)) := by
    simp [String.toList]
  rw [el, er] at h2
  have hp : ∀ (x : Int) (c : Char), c ∈ (format_d x).reverse →
      (fun d : Char => d != '_') c = true := by
    intro x c hc
    have := (format_d_chars (List.mem_reverse.mp hc)).2.1
    simpa using this
  have hs : ∀ (r : List Char) (c : Char) (t : List Char), '_' :: r = c :: t →
      (fun d : Char => d != '_') c = false := by
    intro r c t e
    rw [← (List.cons.inj e).1]
    rfl
  have s1 := span_append_stop (hp i) (hs ("emarf_noitom/".toList ++ out.reverse))
  have s2 := span_append_stop (hp n) (hs ("emarf/".toList ++ inp.reverse))
  rw [h2, s2] at s1
  have h3 := (Prod.mk.inj s1).2
  simp [String.toList] at h3

/-- The mask name of a frame determines the frame. -/
theorem motion_name_injective {out : List Char} {i j : Int}
    (h : out ++ "/motion_frame_".toList ++ format_d i ++ ".jpg".toList
      = out ++ "/motion_frame_".toList ++ format_d j ++ ".jpg".toList) : i = j := by
  have h1 := List.append_cancel_right h
  rw [List.append_assoc, List.append_assoc] at h1
  have h2 := List.append_cancel_left h1
  have h3 := List.append_cancel_left h2
  exact format_d_injective h3

/-- Write footprint of a worker whose mask paths fit the 256-byte array: every
`save_jpeg` call of `process_frame_batch` goes to
`<output>/motion_frame_<i>.jpg` for an `i` of its range, and never to a frame
file `<dir>/frame_<n>.jpg` of any directory. -/
theorem worker_footprint_of_fit (load_jpeg : List Char → Option Image)
    (data : ThreadData)
    (hfit : ∀ i, data.start_frame ≤ i → i ≤ data.end_frame →
      (data.output_path ++ "/motion_frame_".toList ++ format_d i
        ++ ".jpg".toList).length ≤ 255)
    (c : SaveCall) (hc : c ∈ process_frame_batch load_jpeg data) :
    (data.start_frame ≤ c.frame ∧ c.frame ≤ data.end_frame
      ∧ c.filename = data.output_path ++ "/motion_frame_".toList ++ format_d c.frame
          ++ ".jpg".toList)
    ∧ ∀ (dir : List Char) (n : Int),
        c.filename ≠ dir ++ "/frame_".toList ++ format_d n ++ ".jpg".toList := by
  unfold process_frame_batch at hc
  obtain ⟨x, hx, hcx⟩ := List.mem_flatMap.mp hc
  rw [mem_frame_indices] at hx
  obtain ⟨h1, h2, _⟩ := mem_process_frame hcx
  have hname : c.filename = data.output_path ++ "/motion_frame_".toList
      ++ format_d c.frame ++ ".jpg".toList := by
    rw [h2, h1]
    unfold motion_path snprintf
    exact List.take_of_length_le (hfit x hx.1 hx.2)
  refine ⟨⟨by omega, by omega, hname⟩, ?_⟩
  intro dir n
  rw [hname]
  exact motion_name_ne_frame_name _ _ _ _

/-- When the mask paths fit the 256-byte array, two workers of one run over a
non-empty range never call `save_jpeg` with the same file name. -/
theorem workers_write_distinct_paths (load_jpeg : List Char → Option Image)
    (inp out : List Char) (s N k : Int)
    (hs : 0 ≤ s) (hsN : s ≤ N - 1) (hN : N ≤ INT_MAX) (hk : 1 ≤ k)
    (hkmax : k ≤ INT_MAX)
    (hfit : ∀ i, s ≤ i → i ≤ N - 1 →
      (out ++ "/motion_frame_".toList ++ format_d i ++ ".jpg".toList).length ≤ 255)
    (a b : Int) (ha : a ∈ thread_ids k) (hb : b ∈ thread_ids k) (hab : a ≠ b)
    (c d : SaveCall)
    (hc : c ∈ process_frame_batch load_jpeg (thread_data inp out N s k a))
    (hd : d ∈ process_frame_batch load_jpeg (thread_data inp out N s k b)) :
    c.filename ≠ d.filename := by
  rw [mem_thread_ids] at ha hb
  have wa := thread_data_within inp out hs (by omega) hN hk hkmax ha.1 ha.2
  have wb := thread_data_within inp out hs (by omega) hN hk hkmax hb.1 hb.2
  obtain ⟨⟨c1, c2, c3⟩, _⟩ := worker_footprint_of_fit load_jpeg
    (thread_data inp out N s k a)
    (fun i h1 h2 => hfit i (by omega) (by omega)) c hc
  obtain ⟨⟨d1, d2, d3⟩, _⟩ := worker_footprint_of_fit load_jpeg
    (thread_data inp out N s k b)
    (fun i h1 h2 => hfit i (by omega) (by omega)) d hd
  intro heq
  rw [c3, d3] at heq
  have hout : (thread_data inp out N s k a).output_path
      = (thread_data inp out N s k b).output_path := rfl
  rw [hout] at heq
  have hframe := motion_name_injective heq
  rcases lt_or_gt_of_ne hab with h | h
  · have := thread_data_end_lt_start inp out hs (by omega) hN hk hkmax ha.1 h hb.2
    omega
  · have := thread_data_end_lt_start inp out hs (by omega) hN hk hkmax hb.1 h ha.2
    omega

/-! ## Claims on the masks written by a run -/

end MotionDetection
